import Mathlib

set_option maxHeartbeats 1000000
set_option maxRecDepth 8192

/-!
A shallow embedding of `DynamicSizePool.hpp` (the simpool repository's
variable-size sub-allocator) together with proofs about it.

Modelling conventions:
* Machine addresses (`char*` pointers) are modelled as natural numbers; the
  backing allocator (`MA::allocate`) is modelled by passing the address it
  returns as an explicit argument, constrained to be disjoint from all live
  backing allocations.
* The doubly linked `next`/`prev` chains are modelled as Lean lists iterated
  from the chain head; unlinking a node through its `prev`/`next` pointers is
  modelled as removing the first occurrence of that node's value from the
  list, and in-place mutation of a node as replacing that occurrence.
* `std::map<void*, Block*> allocatedAddressToBlock` is modelled as an
  association list from address to block value (`std::map::insert` does not
  overwrite an existing key, and erasing removes the unique entry).
* `std::size_t` arithmetic never overflows in the modelled executions, so
  sizes and byte counters are plain `Nat`.
-/

namespace Simpool

/-- A block descriptor (`struct Block` in `DynamicSizePool.hpp`): `data` is
the start address of the described byte range, `size` its length in bytes and
`isHead` records whether this block is the first one carved from its backing
allocation.  The `next`/`prev` links are represented by the position of the
descriptor in a Lean list. -/
structure Block where
  data : Nat
  size : Nat
  isHead : Bool
deriving DecidableEq, Repr

/-- Ghost bookkeeping for one coarse allocation obtained from the backing
allocator `MA`: its start address and the byte count that was requested. -/
structure Backing where
  start : Nat
  len : Nat
deriving DecidableEq, Repr

/-- The pool state (the data members of `DynamicSizePool`). `addrIndex` is
`allocatedAddressToBlock`. -/
structure Pool where
  freeBlocks : List Block
  usedBlocks : List Block
  totalBytes : Nat
  allocBytes : Nat
  minBytes : Nat
  addrIndex : List (Nat × Block)
deriving DecidableEq, Repr

/-- The freshly constructed pool (`DynamicSizePool(minBytes)`). -/
def initPool (minB : Nat) : Pool :=
  { freeBlocks := [], usedBlocks := [], totalBytes := 0, allocBytes := 0,
    minBytes := minB, addrIndex := [] }

/-- Remove the first occurrence of a node from a chain (the effect of
unlinking a node through its `prev`/`next` pointers). -/
def removeFirst (a : Block) : List Block → List Block
  | [] => []
  | x :: xs => if x = a then xs else x :: removeFirst a xs

/-- Replace the first occurrence of a node in a chain by another node (the
effect of splicing a replacement node into the unlinked node's position). -/
def replaceFirst (a b : Block) : List Block → List Block
  | [] => []
  | x :: xs => if x = a then b :: xs else x :: replaceFirst a b xs

/-- One iteration of the `findUsableBlock` loop:
`if (iter->size >= size && (!best || iter->size < best->size)) best = iter;`. -/
def findStep (reqSize : Nat) (best : Option Block) (iter : Block) : Option Block :=
  match best with
  | none => if reqSize ≤ iter.size then some iter else none
  | some b => if reqSize ≤ iter.size ∧ iter.size < b.size then some iter else best

/-- `findUsableBlock`: scan the free chain once and return the best-fit block
(smallest `size ≥ reqSize`; on ties the first encountered wins because the
comparison `iter->size < best->size` is strict). -/
def findUsableBlock (reqSize : Nat) (free : List Block) : Option Block :=
  free.foldl (findStep reqSize) none

/-- The insertion loop of `allocateBlock`: walk the free chain while
`next->data < data` and link the new block in at that point. -/
def insertSorted (curr : Block) : List Block → List Block
  | [] => [curr]
  | b :: rest =>
    if b.data < curr.data then b :: insertSorted curr rest else curr :: b :: rest

/-- `splitBlock(curr, prev, size)`: if the chosen block's size is exactly the
request it is unlinked from the free chain and used whole; otherwise the low
`size` bytes stay with the chosen block (which keeps its `data` and `isHead`)
and a fresh non-head descriptor for the high `curr->size - size` bytes takes
the chosen block's position in the free chain, inheriting its successor. -/
def splitBlock (best : Block) (size : Nat) (free : List Block) : Block × List Block :=
  if best.size = size then
    (best, removeFirst best free)
  else
    ({ best with size := size },
      replaceFirst best
        { data := best.data + size, size := best.size - size, isHead := false } free)

/-- The trailing merge in `releaseBlock`: `curr` absorbs its free successor
exactly when `curr->data + curr->size == next->data && !next->isHead`. -/
def mergeNext (curr : Block) : List Block → List Block
  | [] => [curr]
  | next :: rest =>
    if curr.data + curr.size = next.data ∧ next.isHead = false then
      { curr with size := curr.size + next.size } :: rest
    else
      curr :: next :: rest

/-- The free-chain part of `releaseBlock`: locate the insertion point by
scanning while `temp->data < curr->data` (so `prev` is the last block with a
smaller address and `next` the first with a larger-or-equal one), merge into
`prev` exactly when `prev->data + prev->size == curr->data && !curr->isHead`,
then attempt the symmetric merge with the successor. -/
def freeInsert (curr : Block) (free : List Block) : List Block :=
  let before := free.takeWhile fun b => decide (b.data < curr.data)
  let after := free.dropWhile fun b => decide (b.data < curr.data)
  match before.getLast? with
  | none => mergeNext curr after
  | some prev =>
    if prev.data + prev.size = curr.data ∧ curr.isHead = false then
      before.dropLast ++ mergeNext { prev with size := prev.size + curr.size } after
    else
      before ++ mergeNext curr after

/-- `releaseBlock(curr, prev)`: unlink `curr` from the used chain and insert
it into the free chain with coalescing. -/
def releaseBlock (curr : Block) (used free : List Block) : List Block × List Block :=
  (removeFirst curr used, freeInsert curr free)

/-- Lookup in the address index (`allocatedAddressToBlock.find(ptr)`). -/
def mapLookup (k : Nat) : List (Nat × Block) → Option Block
  | [] => none
  | (k', b) :: rest => if k' = k then some b else mapLookup k rest

/-- `std::map::insert`: inserts only when the key is not already present. -/
def mapInsert (k : Nat) (b : Block) (m : List (Nat × Block)) : List (Nat × Block) :=
  match mapLookup k m with
  | some _ => m
  | none => (k, b) :: m

/-- `allocatedAddressToBlock.erase(it)`: remove the entry of key `k`. -/
def mapErase (k : Nat) : List (Nat × Block) → List (Nat × Block)
  | [] => []
  | (k', b) :: rest => if k' = k then rest else (k', b) :: mapErase k rest

/-- `allocate` starts with `if (size == 0) size = 1;`. -/
def normalizeSize (req : Nat) : Nat := if req = 0 then 1 else req

/-- `DynamicSizePool::allocate(size)`.  `addr` is the address the backing
allocator would return if a new coarse allocation is needed; it is only used
on the `allocateBlock` path.  Returns the new pool state and the data pointer
handed to the caller. -/
def allocate (addr : Nat) (req : Nat) (s : Pool) : Pool × Nat :=
  let size := normalizeSize req
  let found := findUsableBlock size s.freeBlocks
  let best := match found with
    | some b => b
    | none => { data := addr, size := max size s.minBytes, isHead := true }
  let free1 := match found with
    | some _ => s.freeBlocks
    | none => insertSorted { data := addr, size := max size s.minBytes, isHead := true }
        s.freeBlocks
  let total1 := match found with
    | some _ => s.totalBytes
    | none => s.totalBytes + max size s.minBytes
  let res := splitBlock best size free1
  ({ freeBlocks := res.2
     usedBlocks := res.1 :: s.usedBlocks
     totalBytes := total1
     allocBytes := s.allocBytes + size
     minBytes := s.minBytes
     addrIndex := mapInsert res.1.data res.1 s.addrIndex }, res.1.data)

/-- `DynamicSizePool::deallocate(ptr)`: if `ptr` is not tracked in the address
index, return `false` and change nothing; otherwise erase the index entry,
subtract the block's size from `allocBytes` and release the block. -/
def deallocate (ptr : Nat) (s : Pool) : Pool × Bool :=
  match mapLookup ptr s.addrIndex with
  | none => (s, false)
  | some curr =>
    let rel := releaseBlock curr s.usedBlocks s.freeBlocks
    ({ freeBlocks := rel.2
       usedBlocks := rel.1
       totalBytes := s.totalBytes
       allocBytes := s.allocBytes - curr.size
       minBytes := s.minBytes
       addrIndex := mapErase ptr s.addrIndex }, true)

/-- `allocatedSize()`. -/
def allocatedSize (s : Pool) : Nat := s.allocBytes

/-- `managedSize()`. -/
def managedSize (s : Pool) : Nat := s.totalBytes

/-- `totalSize()`: `totalBytes + blockPool.totalSize()`; the descriptor pool's
reserved byte count is an external quantity, passed in as `poolOverhead`. -/
def totalSize (s : Pool) (poolOverhead : Nat) : Nat := s.totalBytes + poolOverhead

/-- `numFreeBlocks()`. -/
def numFreeBlocks (s : Pool) : Nat := s.freeBlocks.length

/-- `numUsedBlocks()`. -/
def numUsedBlocks (s : Pool) : Nat := s.usedBlocks.length

/-- The first loop of `freeAllBlocks`: release every used block (head first)
into the free chain; returns the resulting free chain. -/
def releaseAll (used free : List Block) : List Block :=
  match used with
  | [] => free
  | b :: rest => releaseAll rest (freeInsert b free)

/-! Range and disjointness vocabulary. -/

/-- Consecutive free-chain blocks are range-ordered. -/
def EndLe (l r : Block) : Prop := l.data + l.size ≤ r.data

/-- The byte ranges of two blocks do not overlap. -/
def Disj (a b : Block) : Prop :=
  a.data + a.size ≤ b.data ∨ b.data + b.size ≤ a.data

/-- Strict address ordering of descriptors. -/
def DataLt (l r : Block) : Prop := l.data < r.data

/-- The block's byte range lies inside the backing allocation's byte range. -/
def fits (b : Block) (β : Backing) : Prop :=
  β.start ≤ b.data ∧ b.data + b.size ≤ β.start + β.len

/-- Two backing allocations do not overlap. -/
def BDisj (α β : Backing) : Prop :=
  α.start + α.len ≤ β.start ∨ β.start + β.len ≤ α.start

/-- A candidate address for a new backing allocation of `len` bytes must be
disjoint from every live backing allocation. -/
def FreshAddr (addr len : Nat) (B : List Backing) : Prop :=
  ∀ β ∈ B, addr + len ≤ β.start ∨ β.start + β.len ≤ addr

/-- No two consecutive free-chain blocks are mergeable: being address
adjacent with a non-head right neighbour. -/
def NoMergeRel (l r : Block) : Prop :=
  ¬(l.data + l.size = r.data ∧ r.isHead = false)

/-- Ghost backing-allocation bookkeeping for one `allocate` call: when
`findUsableBlock` misses, the call requests `max(size, minBytes)` fresh bytes
from the backing allocator. -/
def stepBackings (addr req : Nat) (s : Pool) (B : List Backing) : List Backing :=
  if findUsableBlock (normalizeSize req) s.freeBlocks = none then
    B ++ [{ start := addr, len := max (normalizeSize req) s.minBytes }]
  else B

/-- States (with their ghost backing lists) reachable from a freshly
constructed pool by the public operations `allocate` and `deallocate`.  The
address supplied for a fresh backing allocation must be disjoint from all
live backing allocations (which is what a real backing allocator
guarantees). -/
inductive Reach : Pool → List Backing → Prop
  | init (minB : Nat) : Reach (initPool minB) []
  | stepAlloc (addr req : Nat) (s : Pool) (B : List Backing) :
      Reach s B →
      (findUsableBlock (normalizeSize req) s.freeBlocks = none →
        FreshAddr addr (max (normalizeSize req) s.minBytes) B) →
      Reach (allocate addr req s).1 (stepBackings addr req s B)
  | stepDealloc (ptr : Nat) (s : Pool) (B : List Backing) :
      Reach s B → Reach (deallocate ptr s).1 B

/-! The fallible variant of `allocate` used to analyse the exhaustion paths.
`maResult` is what `MA::allocate` returns (`none` = exhaustion), `descOkA`
whether `blockPool.allocate()` succeeds inside `allocateBlock`, and `descOkS`
whether it succeeds inside `splitBlock`.  A C++ `assert` firing is modelled
as `Except.error`. -/

/-- `splitBlock` with a fallible descriptor pool: on exhaustion it silently
returns without splitting and without unlinking the block from the free
chain (`if (!newBlock) return;`). -/
def splitBlockF (descOkS : Bool) (best : Block) (size : Nat) (free : List Block) :
    Block × List Block :=
  if best.size = size then
    (best, removeFirst best free)
  else if descOkS = false then
    (best, free)
  else
    ({ best with size := size },
      replaceFirst best
        { data := best.data + size, size := best.size - size, isHead := false } free)

/-- `allocate` with fallible collaborators.  `assert(data)` in
`allocateBlock` and `assert(best)` in `allocate` are modelled as fatal
errors; the descriptor-exhaustion path inside `splitBlock` is not checked by
any assertion and falls through. -/
def allocateF (maResult : Option Nat) (descOkA descOkS : Bool) (req : Nat) (s : Pool) :
    Except String (Pool × Nat) :=
  let size := normalizeSize req
  match findUsableBlock size s.freeBlocks with
  | some best =>
    let res := splitBlockF descOkS best size s.freeBlocks
    Except.ok
      ({ freeBlocks := res.2
         usedBlocks := res.1 :: s.usedBlocks
         totalBytes := s.totalBytes
         allocBytes := s.allocBytes + size
         minBytes := s.minBytes
         addrIndex := mapInsert res.1.data res.1 s.addrIndex }, res.1.data)
  | none =>
    match maResult with
    | none => Except.error "assert(data) failed: backing allocator exhausted"
    | some addr =>
      if descOkA = false then
        Except.error "assert(best) failed: descriptor pool exhausted in allocateBlock"
      else
        let nb : Block := { data := addr, size := max size s.minBytes, isHead := true }
        let free1 := insertSorted nb s.freeBlocks
        let res := splitBlockF descOkS nb size free1
        Except.ok
          ({ freeBlocks := res.2
             usedBlocks := res.1 :: s.usedBlocks
             totalBytes := s.totalBytes + max size s.minBytes
             allocBytes := s.allocBytes + size
             minBytes := s.minBytes
             addrIndex := mapInsert res.1.data res.1 s.addrIndex }, res.1.data)

/-! Byte accounting. -/

/-- Sum of the sizes of the blocks on a chain. -/
def sumSizes (l : List Block) : Nat := (l.map Block.size).sum

/-- Sum of the requested byte counts of the backing allocations. -/
def sumLens (B : List Backing) : Nat := (B.map Backing.len).sum

/-! Memory-content model for the zero-fill property. -/

/-- `memset(start, 0, len)` over a byte memory. -/
def memsetRange (mem : Nat → Nat) (start len : Nat) : Nat → Nat :=
  fun a => if start ≤ a ∧ a < start + len then 0 else mem a

/-- `allocate` together with its effect on memory contents:
`memset(usedBlocks->data, 0, usedBlocks->size)` zero-fills the returned
block's bytes just before the pointer is returned. -/
def allocateMem (addr req : Nat) (s : Pool) (mem : Nat → Nat) :
    Pool × Nat × (Nat → Nat) :=
  let res := allocate addr req s
  match res.1.usedBlocks with
  | [] => (res.1, res.2, mem)
  | blk :: _ => (res.1, res.2, memsetRange mem blk.data blk.size)

/-! Batch-execution machinery: a sequence of `allocate` calls followed by a
sequence of `deallocate` calls. -/

/-- Run a list of allocations (each given as backing-address candidate and
requested size); returns the final pool and the list of returned pointers in
call order. -/
def runAllocs : List (Nat × Nat) → Pool → Pool × List Nat
  | [], s => (s, [])
  | a :: rest, s =>
    let r1 := allocate a.1 a.2 s
    let r2 := runAllocs rest r1.1
    (r2.1, r1.2 :: r2.2)

/-- Run a list of deallocations. -/
def runDeallocs : List Nat → Pool → Pool
  | [], s => s
  | p :: rest, s => runDeallocs rest (deallocate p s).1

/-- The backing-address candidates of an allocation trace are valid: whenever
the free-chain search misses, the address passed for the fresh backing
allocation is disjoint from all live backing allocations. -/
def ValidTrace : Pool → List Backing → List (Nat × Nat) → Prop
  | _, _, [] => True
  | s, B, a :: rest =>
    (findUsableBlock (normalizeSize a.2) s.freeBlocks = none →
      FreshAddr a.1 (max (normalizeSize a.2) s.minBytes) B) ∧
    ValidTrace (allocate a.1 a.2 s).1 (stepBackings a.1 a.2 s B) rest

/-! Invariant vocabulary. -/

/-- One legal coalescing event, up to permutation: two blocks `x`, `y` that
are address adjacent (`x.data + x.size = y.data`) with `y` not a head block
are replaced by their fusion, which keeps `x`'s address and head flag. -/
def FuseStep (l l' : List Block) : Prop :=
  ∃ x y rest, l.Perm (x :: y :: rest) ∧ x.data + x.size = y.data ∧
    y.isHead = false ∧ l'.Perm ({ x with size := x.size + y.size } :: rest)

/-- At most one legal coalescing event, up to permutation. -/
def FuseOne (l l' : List Block) : Prop :=
  l.Perm l' ∨ FuseStep l l'

/-- At most two legal coalescing events, up to permutation. -/
def FuseReach (l l' : List Block) : Prop :=
  l.Perm l' ∨ FuseStep l l' ∨ ∃ m, FuseStep l m ∧ FuseStep m l'

/-- Content invariants of the set of live block descriptors (the free chain
and the used chain together), relative to the ghost list of live backing
allocations.  These are all stable under permutation of `all`. -/
structure MemInv (all : List Block) (B : List Backing) : Prop where
  pos : ∀ b ∈ all, 0 < b.size
  disj : List.Pairwise Disj all
  inB : ∀ b ∈ all, ∃ β ∈ B, fits b β
  headIff : ∀ b ∈ all, (b.isHead = true ↔ ∃ β ∈ B, b.data = β.start)
  leftCov : ∀ r ∈ all, r.isHead = false → ∃ l ∈ all, l.data + l.size = r.data
  cover : ∀ β ∈ B, ∀ p, β.start ≤ p → p < β.start + β.len →
      ∃ b ∈ all, b.data ≤ p ∧ p < b.data + b.size

/-- Well-formedness of the ghost backing list: allocations are mutually
disjoint and have positive length. -/
structure BackWF (B : List Backing) : Prop where
  disj : List.Pairwise BDisj B
  pos : ∀ β ∈ B, 0 < β.len

/-- The full state invariant of the pool. -/
structure PoolInv (s : Pool) (B : List Backing) : Prop where
  mem : MemInv (s.freeBlocks ++ s.usedBlocks) B
  back : BackWF B
  sorted : List.Chain' EndLe s.freeBlocks
  noMerge : List.Chain' NoMergeRel s.freeBlocks
  sumUsed : sumSizes s.usedBlocks = s.allocBytes
  sumAll : sumSizes s.freeBlocks + sumSizes s.usedBlocks = s.totalBytes
  sumB : s.totalBytes = sumLens B
  idx : s.addrIndex = s.usedBlocks.map fun b => (b.data, b)

instance : DecidableRel EndLe := fun l r =>
  inferInstanceAs (Decidable (l.data + l.size ≤ r.data))

instance : DecidableRel DataLt := fun l r =>
  inferInstanceAs (Decidable (l.data < r.data))

instance : DecidableRel Disj := fun a b =>
  inferInstanceAs (Decidable (a.data + a.size ≤ b.data ∨ b.data + b.size ≤ a.data))

instance : DecidableRel NoMergeRel := fun l r =>
  inferInstanceAs (Decidable (¬(l.data + l.size = r.data ∧ r.isHead = false)))

instance (addr len : Nat) (B : List Backing) : Decidable (FreshAddr addr len B) :=
  inferInstanceAs
    (Decidable (∀ β ∈ B, addr + len ≤ β.start ∨ β.start + β.len ≤ addr))

instance instDecidableValidTrace :
    (l : List (Nat × Nat)) → (s : Pool) → (B : List Backing) →
    Decidable (ValidTrace s B l)
  | [], _, _ => isTrue trivial
  | _ :: rest, _, _ =>
    @instDecidableAnd _ _ inferInstance (instDecidableValidTrace rest _ _)

/-! ### Basic helper lemmas -/

theorem sumSizes_cons (b : Block) (l : List Block) :
    sumSizes (b :: l) = b.size + sumSizes l := by
  simp [sumSizes]

theorem sumSizes_append (l1 l2 : List Block) :
    sumSizes (l1 ++ l2) = sumSizes l1 + sumSizes l2 := by
  simp [sumSizes]

theorem sumSizes_perm {l1 l2 : List Block} (h : l1.Perm l2) :
    sumSizes l1 = sumSizes l2 :=
  (h.map Block.size).sum_eq

theorem sumLens_append (B1 B2 : List Backing) :
    sumLens (B1 ++ B2) = sumLens B1 + sumLens B2 := by
  simp [sumLens]

instance : IsTrans Block EndLe :=
  ⟨fun a b c hab hbc => by unfold EndLe at *; omega⟩

instance : IsTrans Block DataLt :=
  ⟨fun a b c hab hbc => by unfold DataLt at *; omega⟩

theorem symmetric_disj : Symmetric Disj := fun _ _ h => h.symm

theorem symmetric_bdisj : Symmetric BDisj := fun _ _ h => h.symm

theorem exists_first_decomp {a : Block} {l : List Block} (h : a ∈ l) :
    ∃ pre post, l = pre ++ a :: post ∧ a ∉ pre := by
  induction l with
  | nil => cases h
  | cons x xs ih =>
    by_cases hx : x = a
    · exact ⟨[], xs, by simp [hx], by simp⟩
    · have hmem : a ∈ xs := by
        rcases List.mem_cons.mp h with h1 | h1
        · exact absurd h1.symm hx
        · exact h1
      rcases ih hmem with ⟨pre, post, heq, hn⟩
      refine ⟨x :: pre, post, by simp [heq], ?_⟩
      intro hcon
      rcases List.mem_cons.mp hcon with h1 | h1
      · exact hx h1.symm
      · exact hn h1

theorem removeFirst_append {a : Block} {pre post : List Block} (h : a ∉ pre) :
    removeFirst a (pre ++ a :: post) = pre ++ post := by
  induction pre with
  | nil => simp [removeFirst]
  | cons x xs ih =>
    have hx : ¬x = a := fun he => h (he ▸ List.mem_cons_self x xs)
    simp only [List.cons_append, removeFirst, if_neg hx]
    exact congrArg (List.cons x) (ih fun hm => h (List.mem_cons_of_mem _ hm))

theorem replaceFirst_append {a b : Block} {pre post : List Block} (h : a ∉ pre) :
    replaceFirst a b (pre ++ a :: post) = pre ++ b :: post := by
  induction pre with
  | nil => simp [replaceFirst]
  | cons x xs ih =>
    have hx : ¬x = a := fun he => h (he ▸ List.mem_cons_self x xs)
    simp only [List.cons_append, replaceFirst, if_neg hx]
    exact congrArg (List.cons x) (ih fun hm => h (List.mem_cons_of_mem _ hm))

theorem perm_removeFirst {a : Block} {l : List Block} (h : a ∈ l) :
    l.Perm (a :: removeFirst a l) := by
  rcases exists_first_decomp h with ⟨pre, post, rfl, hn⟩
  rw [removeFirst_append hn]
  exact List.perm_middle

theorem head?_dropWhile_false {p : Block → Bool} {l : List Block} {h : Block}
    (hh : (l.dropWhile p).head? = some h) : p h = false := by
  induction l with
  | nil => simp [List.dropWhile] at hh
  | cons x xs ih =>
    by_cases hp : p x
    · rw [List.dropWhile_cons, if_pos hp] at hh
      exact ih hh
    · rw [List.dropWhile_cons, if_neg hp] at hh
      simp only [List.head?_cons, Option.some.injEq] at hh
      subst hh
      exact Bool.eq_false_iff.mpr hp

theorem disj_data_ne {a b : Block} (hd : Disj a b) (ha : 0 < a.size)
    (hb : 0 < b.size) : a.data ≠ b.data := by
  unfold Disj at hd; omega

theorem data_unique {l : List Block} (hpw : List.Pairwise Disj l)
    (hpos : ∀ b ∈ l, 0 < b.size) {x y : Block} (hx : x ∈ l) (hy : y ∈ l)
    (hd : x.data = y.data) : x = y := by
  by_contra hne
  have hdisj := hpw.forall symmetric_disj hx hy hne
  have hxp := hpos x hx
  have hyp := hpos y hy
  unfold Disj at hdisj; omega

theorem chain'_append_cons {R : Block → Block → Prop} {pre : List Block} {c : Block}
    {post : List Block} (hpre : List.Chain' R pre) (hpost : List.Chain' R post)
    (hlink1 : ∀ l ∈ pre.getLast?, R l c)
    (hlink2 : ∀ h ∈ post.head?, R c h) :
    List.Chain' R (pre ++ c :: post) := by
  rw [List.chain'_append]
  refine ⟨hpre, List.chain'_cons'.mpr ⟨hlink2, hpost⟩, ?_⟩
  intro x hx y hy
  simp only [List.head?_cons, Option.mem_def, Option.some.injEq] at hy
  subst hy
  exact hlink1 x hx

theorem pairwise_endLe {l : List Block} (h : List.Chain' EndLe l) :
    List.Pairwise EndLe l :=
  List.chain'_iff_pairwise.mp h

theorem pairwise_disj_of_chain {l : List Block} (h : List.Chain' EndLe l) :
    List.Pairwise Disj l :=
  (pairwise_endLe h).imp fun hab => Or.inl hab

theorem pairwise_dataLt_of_chain {l : List Block} (h : List.Chain' EndLe l)
    (hpos : ∀ b ∈ l, 0 < b.size) : List.Pairwise DataLt l := by
  refine (pairwise_endLe h).imp_of_mem ?_
  intro a b ha _ hr
  have := hpos a ha
  unfold EndLe at hr; unfold DataLt; omega

theorem disj_concat {x y u : Block} (hadj : x.data + x.size = y.data)
    (hx : Disj x u) (hy : Disj y u) (hu : 0 < u.size) :
    Disj { x with size := x.size + y.size } u := by
  unfold Disj at *
  dsimp only
  omega

theorem backing_eq_of_common {B : List Backing} (hB : BackWF B) {α β : Backing}
    (hα : α ∈ B) (hβ : β ∈ B) {p : Nat} (h1 : α.start ≤ p) (h2 : p < α.start + α.len)
    (h3 : β.start ≤ p) (h4 : p < β.start + β.len) : α = β := by
  by_contra hne
  have hdisj := hB.disj.forall symmetric_bdisj hα hβ hne
  unfold BDisj at hdisj; omega

theorem fits_merge {B : List Backing} (hB : BackWF B) {x y : Block} {α β : Backing}
    (hα : α ∈ B) (hβ : β ∈ B) (hfx : fits x α) (hfy : fits y β)
    (hadj : x.data + x.size = y.data) (hxpos : 0 < x.size)
    (hnh : ∀ γ ∈ B, y.data ≠ γ.start) :
    fits { x with size := x.size + y.size } β := by
  have hstart : β.start < y.data := lt_of_le_of_ne hfy.1 (Ne.symm (hnh β hβ))
  unfold fits at hfx hfy
  have hq1 : α.start ≤ y.data - 1 ∧ y.data - 1 < α.start + α.len := by omega
  have hq2 : β.start ≤ y.data - 1 ∧ y.data - 1 < β.start + β.len := by omega
  have heq : α = β := backing_eq_of_common hB hα hβ hq1.1 hq1.2 hq2.1 hq2.2
  subst heq
  unfold fits
  dsimp only
  omega

/-! ### Characterization of the best-fit search -/

theorem findFold_none {reqSize : Nat} :
    ∀ (l : List Block) (acc : Option Block),
    (l.foldl (findStep reqSize) acc = none ↔ acc = none ∧ ∀ c ∈ l, c.size < reqSize) := by
  intro l
  induction l with
  | nil => intro acc; simp
  | cons x xs ih =>
    intro acc
    rw [List.foldl_cons, ih]
    constructor
    · rintro ⟨hacc, hall⟩
      cases acc with
      | none =>
        simp only [findStep] at hacc
        constructor
        · rfl
        · intro c hc
          rcases List.mem_cons.mp hc with rfl | hc
          · by_cases hx : reqSize ≤ c.size
            · rw [if_pos hx] at hacc; cases hacc
            · omega
          · exact hall c hc
      | some a =>
        simp only [findStep] at hacc
        split at hacc <;> cases hacc
    · rintro ⟨hacc, hall⟩
      subst hacc
      have hx : x.size < reqSize := hall x (List.mem_cons_self x xs)
      simp only [findStep]
      rw [if_neg (by omega)]
      exact ⟨rfl, fun c hc => hall c (List.mem_cons_of_mem _ hc)⟩

theorem findUsableBlock_none {reqSize : Nat} {free : List Block} :
    findUsableBlock reqSize free = none ↔ ∀ c ∈ free, c.size < reqSize := by
  unfold findUsableBlock
  rw [findFold_none]
  simp

theorem findFold_some {reqSize : Nat} :
    ∀ (l : List Block) (acc : Option Block) (b : Block),
    l.foldl (findStep reqSize) acc = some b →
    (acc = some b ∧ ∀ c ∈ l, reqSize ≤ c.size → b.size ≤ c.size) ∨
    (∃ pre post, l = pre ++ b :: post ∧ reqSize ≤ b.size ∧
      (∀ a, acc = some a → b.size < a.size) ∧
      (∀ c ∈ pre, reqSize ≤ c.size → b.size < c.size) ∧
      (∀ c ∈ post, reqSize ≤ c.size → b.size ≤ c.size)) := by
  intro l
  induction l with
  | nil =>
    intro acc b h
    exact Or.inl ⟨h, by simp⟩
  | cons x xs ih =>
    intro acc b h
    rw [List.foldl_cons] at h
    rcases ih (findStep reqSize acc x) b h with
      ⟨hacc, hall⟩ | ⟨pre, post, heq, hb, hlt, hpre, hpost⟩
    · cases acc with
      | none =>
        simp only [findStep] at hacc
        by_cases hx : reqSize ≤ x.size
        · rw [if_pos hx] at hacc
          injection hacc with hacc
          subst hacc
          refine Or.inr ⟨[], xs, by simp, hx, ?_, by simp, hall⟩
          intro a ha; cases ha
        · rw [if_neg hx] at hacc; cases hacc
      | some a0 =>
        simp only [findStep] at hacc
        by_cases hcond : reqSize ≤ x.size ∧ x.size < a0.size
        · rw [if_pos hcond] at hacc
          injection hacc with hacc
          subst hacc
          refine Or.inr ⟨[], xs, by simp, hcond.1, ?_, by simp, hall⟩
          intro a ha
          injection ha with ha
          subst ha
          exact hcond.2
        · rw [if_neg hcond] at hacc
          injection hacc with hacc
          subst hacc
          refine Or.inl ⟨rfl, ?_⟩
          intro c hc hcs
          rcases List.mem_cons.mp hc with rfl | hc
          · omega
          · exact hall c hc hcs
    · refine Or.inr ⟨x :: pre, post, by simp [heq], hb, ?_, ?_, hpost⟩
      · intro a ha
        subst ha
        by_cases hcond : reqSize ≤ x.size ∧ x.size < a.size
        · have := hlt x (by simp only [findStep]; rw [if_pos hcond])
          omega
        · exact hlt a (by simp only [findStep]; rw [if_neg hcond])
      · intro c hc hcs
        rcases List.mem_cons.mp hc with rfl | hc
        · cases acc with
          | none => exact hlt c (by simp only [findStep]; rw [if_pos hcs])
          | some a0 =>
            by_cases hcond : reqSize ≤ c.size ∧ c.size < a0.size
            · exact hlt c (by simp only [findStep]; rw [if_pos hcond])
            · have := hlt a0 (by simp only [findStep]; rw [if_neg hcond])
              omega
        · exact hpre c hc hcs

theorem findUsableBlock_some {reqSize : Nat} {free : List Block} {b : Block}
    (h : findUsableBlock reqSize free = some b) :
    ∃ pre post, free = pre ++ b :: post ∧ reqSize ≤ b.size ∧
      (∀ c ∈ pre, reqSize ≤ c.size → b.size < c.size) ∧
      (∀ c ∈ post, reqSize ≤ c.size → b.size ≤ c.size) := by
  rcases findFold_some free none b h with ⟨hacc, _⟩ | ⟨pre, post, heq, hb, _, hpre, hpost⟩
  · cases hacc
  · exact ⟨pre, post, heq, hb, hpre, hpost⟩

theorem findUsableBlock_mem {reqSize : Nat} {free : List Block} {b : Block}
    (h : findUsableBlock reqSize free = some b) :
    b ∈ free ∧ reqSize ≤ b.size := by
  rcases findUsableBlock_some h with ⟨pre, post, heq, hb, _, _⟩
  exact ⟨heq ▸ List.mem_append.mpr (Or.inr (List.mem_cons_self _ _)), hb⟩

theorem findUsableBlock_min {reqSize : Nat} {free : List Block} {b : Block}
    (h : findUsableBlock reqSize free = some b) :
    ∀ c ∈ free, reqSize ≤ c.size → b.size ≤ c.size := by
  rcases findUsableBlock_some h with ⟨pre, post, heq, _, hpre, hpost⟩
  intro c hc hcs
  subst heq
  rcases List.mem_append.mp hc with hc | hc
  · exact le_of_lt (hpre c hc hcs)
  · rcases List.mem_cons.mp hc with rfl | hc
    · exact le_rfl
    · exact hpost c hc hcs

/-! ### Fusion-step calculus -/

theorem fuseStep_perm_left {l l2 m : List Block} (hp : l2.Perm l) (h : FuseStep l m) :
    FuseStep l2 m :=
  let ⟨x, y, rest, h1, h2, h3, h4⟩ := h
  ⟨x, y, rest, hp.trans h1, h2, h3, h4⟩

theorem fuseStep_perm_right {l m m2 : List Block} (h : FuseStep l m) (hp : m.Perm m2) :
    FuseStep l m2 :=
  let ⟨x, y, rest, h1, h2, h3, h4⟩ := h
  ⟨x, y, rest, h1, h2, h3, hp.symm.trans h4⟩

theorem fuseStep_append (t : List Block) {l m : List Block} (h : FuseStep l m) :
    FuseStep (l ++ t) (m ++ t) :=
  let ⟨x, y, rest, h1, h2, h3, h4⟩ := h
  ⟨x, y, rest ++ t, h1.append_right t, h2, h3, h4.append_right t⟩

theorem fuseOne_congr {l l2 m m2 : List Block} (hl : l2.Perm l) (hm : m.Perm m2)
    (h : FuseOne l m) : FuseOne l2 m2 := by
  rcases h with hp | hstep
  · exact Or.inl ((hl.trans hp).trans hm)
  · exact Or.inr (fuseStep_perm_right (fuseStep_perm_left hl hstep) hm)

theorem fuseOne_append_left (t : List Block) {l m : List Block} (h : FuseOne l m) :
    FuseOne (t ++ l) (t ++ m) := by
  rcases h with hp | hstep
  · exact Or.inl ((List.Perm.refl t).append hp)
  · exact Or.inr (fuseStep_perm_right
      (fuseStep_perm_left List.perm_append_comm (fuseStep_append t hstep))
      List.perm_append_comm)

theorem fuseReach_of_one {l m : List Block} (h : FuseOne l m) : FuseReach l m := by
  rcases h with hp | hstep
  · exact Or.inl hp
  · exact Or.inr (Or.inl hstep)

theorem fuseStep_then_one {l m k : List Block} (h1 : FuseStep l m) (h2 : FuseOne m k) :
    FuseReach l k := by
  rcases h2 with hp | hstep
  · exact Or.inr (Or.inl (fuseStep_perm_right h1 hp))
  · exact Or.inr (Or.inr ⟨m, h1, hstep⟩)

theorem fuseReach_congr {l l2 m m2 : List Block} (hl : l2.Perm l) (hm : m.Perm m2)
    (h : FuseReach l m) : FuseReach l2 m2 := by
  rcases h with hp | hstep | ⟨mid, s1, s2⟩
  · exact Or.inl ((hl.trans hp).trans hm)
  · exact Or.inr (Or.inl (fuseStep_perm_right (fuseStep_perm_left hl hstep) hm))
  · exact Or.inr (Or.inr ⟨mid, fuseStep_perm_left hl s1, fuseStep_perm_right s2 hm⟩)

theorem fuseReach_append (t : List Block) {l m : List Block} (h : FuseReach l m) :
    FuseReach (l ++ t) (m ++ t) := by
  rcases h with hp | hstep | ⟨mid, s1, s2⟩
  · exact Or.inl (hp.append_right t)
  · exact Or.inr (Or.inl (fuseStep_append t hstep))
  · exact Or.inr (Or.inr ⟨mid ++ t, fuseStep_append t s1, fuseStep_append t s2⟩)

/-! ### Transfer of the content invariants -/

theorem memInv_perm {all all2 : List Block} {B : List Backing}
    (hp : all.Perm all2) (h : MemInv all B) : MemInv all2 B where
  pos := fun b hb => h.pos b (hp.symm.subset hb)
  disj := (hp.pairwise_iff fun hd => hd.symm).mp h.disj
  inB := fun b hb => h.inB b (hp.symm.subset hb)
  headIff := fun b hb => h.headIff b (hp.symm.subset hb)
  leftCov := fun r hr hh =>
    let ⟨l, hl, he⟩ := h.leftCov r (hp.symm.subset hr) hh
    ⟨l, hp.subset hl, he⟩
  cover := fun β hβ p h1 h2 =>
    let ⟨b, hb, hc⟩ := h.cover β hβ p h1 h2
    ⟨b, hp.subset hb, hc⟩

theorem memInv_fuse {all all2 : List Block} {B : List Backing}
    (hstep : FuseStep all all2) (h : MemInv all B) (hB : BackWF B) :
    MemInv all2 B ∧ sumSizes all2 = sumSizes all := by
  rcases hstep with ⟨x, y, rest, hp1, hadj, hyh, hp2⟩
  have h1 : MemInv (x :: y :: rest) B := memInv_perm hp1 h
  have hx : x ∈ x :: y :: rest := List.mem_cons_self _ _
  have hy : y ∈ x :: y :: rest := List.mem_cons_of_mem _ (List.mem_cons_self _ _)
  have hxpos : 0 < x.size := h1.pos x hx
  have hypos : 0 < y.size := h1.pos y hy
  have hpw := h1.disj
  rw [List.pairwise_cons] at hpw
  obtain ⟨hxall, hpw⟩ := hpw
  rw [List.pairwise_cons] at hpw
  obtain ⟨hyall, hprest⟩ := hpw
  have hynotmem : y ∉ rest := by
    intro hmem
    have := hyall y hmem
    unfold Disj at this; omega
  have hxnotmem : x ∉ rest := by
    intro hmem
    have hd := hxall x (List.mem_cons_of_mem _ hmem)
    unfold Disj at hd; omega
  have hynostart : ∀ γ ∈ B, y.data ≠ γ.start := by
    intro γ hγ he
    have := (h1.headIff y hy).mpr ⟨γ, hγ, he⟩
    rw [hyh] at this
    cases this
  have hfused : MemInv ({ x with size := x.size + y.size } :: rest) B := by
    constructor
    · intro b hb
      rcases List.mem_cons.mp hb with rfl | hb
      · dsimp only; omega
      · exact h1.pos b (List.mem_cons_of_mem _ (List.mem_cons_of_mem _ hb))
    · rw [List.pairwise_cons]
      refine ⟨?_, hprest⟩
      intro u hu
      exact disj_concat hadj (hxall u (List.mem_cons_of_mem _ hu)) (hyall u hu)
        (h1.pos u (List.mem_cons_of_mem _ (List.mem_cons_of_mem _ hu)))
    · intro b hb
      rcases List.mem_cons.mp hb with rfl | hb
      · obtain ⟨α, hα, hfx⟩ := h1.inB x hx
        obtain ⟨β, hβ, hfy⟩ := h1.inB y hy
        exact ⟨β, hβ, fits_merge hB hα hβ hfx hfy hadj hxpos hynostart⟩
      · exact h1.inB b (List.mem_cons_of_mem _ (List.mem_cons_of_mem _ hb))
    · intro b hb
      rcases List.mem_cons.mp hb with rfl | hb
      · exact h1.headIff x hx
      · exact h1.headIff b (List.mem_cons_of_mem _ (List.mem_cons_of_mem _ hb))
    · intro r hr hrh
      rcases List.mem_cons.mp hr with hreq | hr2
      · -- the fused block is non-head, so x was non-head
        have hxh : x.isHead = false := by
          have : r.isHead = x.isHead := by rw [hreq]
          rw [← this]; exact hrh
        obtain ⟨l, hl, hle⟩ := h1.leftCov x hx hxh
        have hrd : r.data = x.data := by rw [hreq]
        rcases List.mem_cons.mp hl with hlx | hl2
        · exfalso
          have hld : l.data = x.data := by rw [hlx]
          have hlpos := h1.pos l hl
          omega
        rcases List.mem_cons.mp hl2 with hly | hl3
        · exfalso
          have h1d : l.data = y.data := by rw [hly]
          have h1s : l.size = y.size := by rw [hly]
          omega
        · exact ⟨l, List.mem_cons_of_mem _ hl3, by omega⟩
      · obtain ⟨l, hl, hle⟩ := h1.leftCov r
          (List.mem_cons_of_mem _ (List.mem_cons_of_mem _ hr2)) hrh
        rcases List.mem_cons.mp hl with hlx | hl2
        · -- witness was x, so r.data = y.data: impossible since y is unique
          exfalso
          have hld : l.data = x.data := by rw [hlx]
          have hls : l.size = x.size := by rw [hlx]
          have hry : r = y := data_unique h1.disj h1.pos
            (List.mem_cons_of_mem _ (List.mem_cons_of_mem _ hr2)) hy (by omega)
          exact hynotmem (hry ▸ hr2)
        rcases List.mem_cons.mp hl2 with hly | hl3
        · -- witness was y; the fused block inherits y's end
          have hld : l.data = y.data := by rw [hly]
          have hls : l.size = y.size := by rw [hly]
          refine ⟨{ x with size := x.size + y.size }, List.mem_cons_self _ _, ?_⟩
          show x.data + (x.size + y.size) = r.data
          omega
        · exact ⟨l, List.mem_cons_of_mem _ hl3, hle⟩
    · intro β hβ p h1p h2p
      obtain ⟨b, hb, hc⟩ := h1.cover β hβ p h1p h2p
      rcases List.mem_cons.mp hb with hbx | hb2
      · have hbd : b.data = x.data := by rw [hbx]
        have hbs : b.size = x.size := by rw [hbx]
        refine ⟨{ x with size := x.size + y.size }, List.mem_cons_self _ _, ?_⟩
        show x.data ≤ p ∧ p < x.data + (x.size + y.size)
        omega
      rcases List.mem_cons.mp hb2 with hby | hb3
      · have hbd : b.data = y.data := by rw [hby]
        have hbs : b.size = y.size := by rw [hby]
        refine ⟨{ x with size := x.size + y.size }, List.mem_cons_self _ _, ?_⟩
        show x.data ≤ p ∧ p < x.data + (x.size + y.size)
        omega
      · exact ⟨b, List.mem_cons_of_mem _ hb3, hc⟩
  refine ⟨memInv_perm hp2.symm hfused, ?_⟩
  rw [sumSizes_perm hp2, sumSizes_perm hp1]
  rw [sumSizes_cons, sumSizes_cons, sumSizes_cons]
  show x.size + y.size + sumSizes rest = x.size + (y.size + sumSizes rest)
  omega

theorem memInv_fuseReach {all all2 : List Block} {B : List Backing}
    (hr : FuseReach all all2) (h : MemInv all B) (hB : BackWF B) :
    MemInv all2 B ∧ sumSizes all2 = sumSizes all := by
  rcases hr with hp | hstep | ⟨m, h1, h2⟩
  · exact ⟨memInv_perm hp h, (sumSizes_perm hp).symm⟩
  · exact memInv_fuse hstep h hB
  · rcases memInv_fuse h1 h hB with ⟨hm, hs1⟩
    rcases memInv_fuse h2 hm hB with ⟨hm2, hs2⟩
    exact ⟨hm2, by omega⟩

/-! ### Structure of `mergeNext` and `freeInsert` -/

theorem mergeNext_fuseOne (c : Block) (A : List Block) :
    FuseOne (c :: A) (mergeNext c A) := by
  cases A with
  | nil => exact Or.inl (List.Perm.refl _)
  | cons n rest =>
    simp only [mergeNext]
    by_cases hc : c.data + c.size = n.data ∧ n.isHead = false
    · rw [if_pos hc]
      exact Or.inr ⟨c, n, rest, List.Perm.refl _, hc.1, hc.2, List.Perm.refl _⟩
    · rw [if_neg hc]
      exact Or.inl (List.Perm.refl _)

theorem mergeNext_spec (c : Block) (A : List Block)
    (hsa : List.Chain' EndLe A) (hna : List.Chain' NoMergeRel A)
    (hce : ∀ h ∈ A.head?, c.data + c.size ≤ h.data) :
    ∃ c2 tail, mergeNext c A = c2 :: tail ∧ c2.data = c.data ∧ c2.isHead = c.isHead ∧
      List.Chain' EndLe (c2 :: tail) ∧ List.Chain' NoMergeRel (c2 :: tail) := by
  cases A with
  | nil =>
    exact ⟨c, [], rfl, rfl, rfl, List.chain'_singleton c, List.chain'_singleton c⟩
  | cons n rest =>
    obtain ⟨hslink, hsr⟩ := List.chain'_cons'.mp hsa
    obtain ⟨hnlink, hnr⟩ := List.chain'_cons'.mp hna
    simp only [mergeNext]
    by_cases hc : c.data + c.size = n.data ∧ n.isHead = false
    · rw [if_pos hc]
      refine ⟨_, rest, rfl, rfl, rfl, ?_, ?_⟩
      · rw [List.chain'_cons']
        refine ⟨?_, hsr⟩
        intro h hh
        have hnh := hslink h hh
        show c.data + (c.size + n.size) ≤ h.data
        unfold EndLe at hnh
        omega
      · rw [List.chain'_cons']
        refine ⟨?_, hnr⟩
        intro h hh
        have hnh := hnlink h hh
        intro hcon
        refine hnh ⟨?_, hcon.2⟩
        have : c.data + (c.size + n.size) = h.data := hcon.1
        omega
    · rw [if_neg hc]
      refine ⟨c, n :: rest, rfl, rfl, rfl, ?_, ?_⟩
      · rw [List.chain'_cons']
        exact ⟨fun h hh => by cases hh; exact hce n rfl, hsa⟩
      · rw [List.chain'_cons']
        exact ⟨fun h hh => by cases hh; exact hc, hna⟩

theorem freeInsert_eq_none (curr : Block) (free : List Block)
    (hlast : (free.takeWhile fun b => decide (b.data < curr.data)).getLast? = none) :
    freeInsert curr free =
      mergeNext curr (free.dropWhile fun b => decide (b.data < curr.data)) := by
  simp only [freeInsert]
  rw [hlast]

theorem freeInsert_eq_merge (curr : Block) (free : List Block) (prev : Block)
    (hlast : (free.takeWhile fun b => decide (b.data < curr.data)).getLast? = some prev)
    (hcond : prev.data + prev.size = curr.data ∧ curr.isHead = false) :
    freeInsert curr free =
      (free.takeWhile fun b => decide (b.data < curr.data)).dropLast ++
        mergeNext { prev with size := prev.size + curr.size }
          (free.dropWhile fun b => decide (b.data < curr.data)) := by
  simp only [freeInsert]
  rw [hlast]
  exact if_pos hcond

theorem freeInsert_eq_nomerge (curr : Block) (free : List Block) (prev : Block)
    (hlast : (free.takeWhile fun b => decide (b.data < curr.data)).getLast? = some prev)
    (hcond : ¬(prev.data + prev.size = curr.data ∧ curr.isHead = false)) :
    freeInsert curr free =
      (free.takeWhile fun b => decide (b.data < curr.data)) ++
        mergeNext curr (free.dropWhile fun b => decide (b.data < curr.data)) := by
  simp only [freeInsert]
  rw [hlast]
  exact if_neg hcond

theorem freeInsert_fuseReach (curr : Block) (free : List Block) :
    FuseReach (curr :: free) (freeInsert curr free) := by
  cases hlast : (free.takeWhile (fun b => decide (b.data < curr.data))).getLast? with
  | none =>
    rw [freeInsert_eq_none curr free hlast]
    have hbe : free.takeWhile (fun b => decide (b.data < curr.data)) = [] :=
      List.getLast?_eq_none_iff.mp hlast
    refine fuseReach_of_one
      (fuseOne_congr ?_ (List.Perm.refl _) (mergeNext_fuseOne curr _))
    have hba := List.takeWhile_append_dropWhile
      (fun b => decide (b.data < curr.data)) free
    rw [hbe, List.nil_append] at hba
    rw [hba]
  | some prev =>
    obtain ⟨pre, hpre⟩ := List.getLast?_eq_some_iff.mp hlast
    have hba := List.takeWhile_append_dropWhile
      (fun b => decide (b.data < curr.data)) free
    rw [hpre, List.append_assoc, List.singleton_append] at hba
    by_cases hcond : prev.data + prev.size = curr.data ∧ curr.isHead = false
    · rw [freeInsert_eq_merge curr free prev hlast hcond, hpre, List.dropLast_concat]
      have hstep : FuseStep (curr :: free)
          ({ prev with size := prev.size + curr.size } ::
            (pre ++ free.dropWhile (fun b => decide (b.data < curr.data)))) := by
        refine ⟨prev, curr,
          pre ++ free.dropWhile (fun b => decide (b.data < curr.data)),
          ?_, hcond.1, hcond.2, List.Perm.refl _⟩
        have h1 : (curr :: (pre ++ prev ::
            free.dropWhile (fun b => decide (b.data < curr.data)))).Perm
            (curr :: prev ::
              (pre ++ free.dropWhile (fun b => decide (b.data < curr.data)))) :=
          List.Perm.cons curr List.perm_middle
        rw [hba] at h1
        exact h1.trans (List.Perm.swap prev curr _)
      exact fuseStep_then_one hstep
        (fuseOne_congr List.perm_middle.symm (List.Perm.refl _)
          (fuseOne_append_left pre (mergeNext_fuseOne _ _)))
    · rw [freeInsert_eq_nomerge curr free prev hlast hcond]
      refine fuseReach_of_one (fuseOne_congr ?_ (List.Perm.refl _)
        (fuseOne_append_left (free.takeWhile (fun b => decide (b.data < curr.data)))
          (mergeNext_fuseOne curr _)))
      have h1 : ((free.takeWhile fun b => decide (b.data < curr.data)) ++ curr ::
          free.dropWhile (fun b => decide (b.data < curr.data))).Perm
          (curr :: ((free.takeWhile (fun b => decide (b.data < curr.data))) ++
            free.dropWhile (fun b => decide (b.data < curr.data)))) := List.perm_middle
      rw [List.takeWhile_append_dropWhile] at h1
      exact h1.symm

theorem freeInsert_chains (curr : Block) (free : List Block)
    (hs : List.Chain' EndLe free) (hn : List.Chain' NoMergeRel free)
    (hdisj : ∀ b ∈ free, Disj b curr)
    (hpos : ∀ b ∈ free, 0 < b.size) (hcpos : 0 < curr.size) :
    List.Chain' EndLe (freeInsert curr free) ∧
    List.Chain' NoMergeRel (freeInsert curr free) := by
  have hba : free.takeWhile (fun b => decide (b.data < curr.data)) ++
      free.dropWhile (fun b => decide (b.data < curr.data)) = free :=
    List.takeWhile_append_dropWhile _ _
  have hbmem : ∀ b ∈ free.takeWhile (fun b => decide (b.data < curr.data)), b ∈ free :=
    fun b hb => by rw [← hba]; exact List.mem_append_left _ hb
  have hamem : ∀ b ∈ free.dropWhile (fun b => decide (b.data < curr.data)), b ∈ free :=
    fun b hb => by rw [← hba]; exact List.mem_append_right _ hb
  have hbend : ∀ b ∈ free.takeWhile (fun b => decide (b.data < curr.data)),
      b.data + b.size ≤ curr.data := by
    intro b hb
    have hblt : b.data < curr.data := by
      have := List.mem_takeWhile_imp hb
      simpa using this
    have hd := hdisj b (hbmem b hb)
    unfold Disj at hd
    omega
  have hahead : ∀ h ∈ (free.dropWhile (fun b => decide (b.data < curr.data))).head?,
      curr.data + curr.size ≤ h.data := by
    intro h hh
    have hge : ¬(h.data < curr.data) := by
      have := head?_dropWhile_false hh
      simpa using this
    have hmem : h ∈ free.dropWhile (fun b => decide (b.data < curr.data)) := by
      cases hcase : free.dropWhile (fun b => decide (b.data < curr.data)) with
      | nil => rw [hcase] at hh; cases hh
      | cons x xs =>
        rw [hcase] at hh
        cases hh
        exact List.mem_cons_self _ _
    have hd := hdisj h (hamem h hmem)
    have hp := hpos h (hamem h hmem)
    unfold Disj at hd
    omega
  have hsplit := hs
  rw [← hba, List.chain'_append] at hsplit
  obtain ⟨hsb, hsa, hsl⟩ := hsplit
  have hnsplit := hn
  rw [← hba, List.chain'_append] at hnsplit
  obtain ⟨hnb, hna, hnl⟩ := hnsplit
  cases hlast : (free.takeWhile (fun b => decide (b.data < curr.data))).getLast? with
  | none =>
    obtain ⟨c2, tail, heq, _, _, hcs, hcn⟩ := mergeNext_spec curr _ hsa hna hahead
    rw [freeInsert_eq_none curr free hlast, heq]
    exact ⟨hcs, hcn⟩
  | some prev =>
    obtain ⟨pre, hpre⟩ := List.getLast?_eq_some_iff.mp hlast
    have hprevmem : prev ∈ free.takeWhile (fun b => decide (b.data < curr.data)) := by
      rw [hpre]; simp
    have hpresplit := hsb
    rw [hpre, List.chain'_append] at hpresplit
    obtain ⟨hspre, -, hsprelink⟩ := hpresplit
    have hnpresplit := hnb
    rw [hpre, List.chain'_append] at hnpresplit
    obtain ⟨hnpre, -, hnprelink⟩ := hnpresplit
    by_cases hcond : prev.data + prev.size = curr.data ∧ curr.isHead = false
    · -- merged with the predecessor
      have hce : ∀ h ∈ (free.dropWhile (fun b => decide (b.data < curr.data))).head?,
          { prev with size := prev.size + curr.size }.data +
            { prev with size := prev.size + curr.size }.size ≤ h.data := by
        intro h hh
        have h1 := hahead h hh
        show prev.data + (prev.size + curr.size) ≤ h.data
        have h2 : prev.data + prev.size = curr.data := hcond.1
        omega
      obtain ⟨c2, tail, heq, hc2d, hc2h, hcs, hcn⟩ :=
        mergeNext_spec { prev with size := prev.size + curr.size } _ hsa hna hce
      have hc2d2 : c2.data = prev.data := hc2d
      have hc2h2 : c2.isHead = prev.isHead := hc2h
      rw [freeInsert_eq_merge curr free prev hlast hcond, hpre, List.dropLast_concat,
        heq]
      constructor
      · rw [List.chain'_append]
        refine ⟨hspre, hcs, ?_⟩
        intro x hx y hy
        simp only [List.head?_cons, Option.mem_def, Option.some.injEq] at hy
        subst hy
        have h1 := hsprelink x hx prev rfl
        unfold EndLe at h1 ⊢
        omega
      · rw [List.chain'_append]
        refine ⟨hnpre, hcn, ?_⟩
        intro x hx y hy
        simp only [List.head?_cons, Option.mem_def, Option.some.injEq] at hy
        subst hy
        have h1 := hnprelink x hx prev rfl
        intro hcon
        refine h1 ⟨?_, ?_⟩
        · rw [hcon.1, hc2d2]
        · rw [← hc2h2]; exact hcon.2
    · -- not merged with the predecessor
      obtain ⟨c2, tail, heq, hc2d, hc2h, hcs, hcn⟩ :=
        mergeNext_spec curr _ hsa hna hahead
      rw [freeInsert_eq_nomerge curr free prev hlast hcond, heq]
      constructor
      · rw [List.chain'_append]
        refine ⟨hsb, hcs, ?_⟩
        intro x hx y hy
        simp only [List.head?_cons, Option.mem_def, Option.some.injEq] at hy
        subst hy
        rw [hlast] at hx
        cases hx
        have h1 := hbend prev hprevmem
        unfold EndLe
        omega
      · rw [List.chain'_append]
        refine ⟨hnb, hcn, ?_⟩
        intro x hx y hy
        simp only [List.head?_cons, Option.mem_def, Option.some.injEq] at hy
        subst hy
        rw [hlast] at hx
        cases hx
        intro hcon
        exact hcond ⟨by rw [← hc2d]; exact hcon.1, by rw [← hc2h]; exact hcon.2⟩

/-! ### `insertSorted` and `splitBlock` -/

theorem mem_of_getLast? {l : List Block} {a : Block} (h : l.getLast? = some a) :
    a ∈ l := by
  obtain ⟨l2, rfl⟩ := List.getLast?_eq_some_iff.mp h
  exact List.mem_append_right _ (List.mem_cons_self _ _)

theorem insertSorted_eq (nb : Block) (free : List Block) :
    insertSorted nb free =
      free.takeWhile (fun b => decide (b.data < nb.data)) ++
        nb :: free.dropWhile (fun b => decide (b.data < nb.data)) := by
  induction free with
  | nil => rfl
  | cons b rest ih =>
    by_cases hb : b.data < nb.data
    · have hd : (decide (b.data < nb.data)) = true := decide_eq_true hb
      simp only [insertSorted, if_pos hb, List.takeWhile_cons, List.dropWhile_cons, hd,
        if_true, ih, List.cons_append]
    · have hd : (decide (b.data < nb.data)) = false := decide_eq_false hb
      simp only [insertSorted, if_neg hb, List.takeWhile_cons, List.dropWhile_cons, hd,
        Bool.false_eq_true, if_false, List.nil_append]

theorem insertSorted_perm (nb : Block) (free : List Block) :
    (insertSorted nb free).Perm (nb :: free) := by
  rw [insertSorted_eq]
  have h1 : ((free.takeWhile fun b => decide (b.data < nb.data)) ++ nb ::
      free.dropWhile (fun b => decide (b.data < nb.data))).Perm
      (nb :: ((free.takeWhile (fun b => decide (b.data < nb.data))) ++
        free.dropWhile (fun b => decide (b.data < nb.data)))) := List.perm_middle
  rw [List.takeWhile_append_dropWhile] at h1
  exact h1

theorem insertSorted_mem (nb : Block) (free : List Block) :
    nb ∈ insertSorted nb free :=
  (insertSorted_perm nb free).symm.subset (List.mem_cons_self _ _)

theorem insertSorted_chains (nb : Block) (free : List Block)
    (hs : List.Chain' EndLe free) (hn : List.Chain' NoMergeRel free)
    (hdisj : ∀ b ∈ free, Disj b nb)
    (hpos : ∀ b ∈ free, 0 < b.size) (hnbpos : 0 < nb.size)
    (hnbHead : nb.isHead = true)
    (hnoAdj : ∀ r ∈ free, r.isHead = false → nb.data + nb.size ≠ r.data) :
    List.Chain' EndLe (insertSorted nb free) ∧
    List.Chain' NoMergeRel (insertSorted nb free) := by
  rw [insertSorted_eq]
  have hba : free.takeWhile (fun b => decide (b.data < nb.data)) ++
      free.dropWhile (fun b => decide (b.data < nb.data)) = free :=
    List.takeWhile_append_dropWhile _ _
  have hbmem : ∀ b ∈ free.takeWhile (fun b => decide (b.data < nb.data)), b ∈ free :=
    fun b hb => by rw [← hba]; exact List.mem_append_left _ hb
  have hamem : ∀ b ∈ free.dropWhile (fun b => decide (b.data < nb.data)), b ∈ free :=
    fun b hb => by rw [← hba]; exact List.mem_append_right _ hb
  have hbend : ∀ b ∈ free.takeWhile (fun b => decide (b.data < nb.data)),
      b.data + b.size ≤ nb.data := by
    intro b hb
    have hblt : b.data < nb.data := by
      have := List.mem_takeWhile_imp hb
      simpa using this
    have hd := hdisj b (hbmem b hb)
    unfold Disj at hd
    omega
  have hahead : ∀ h ∈ (free.dropWhile (fun b => decide (b.data < nb.data))).head?,
      nb.data + nb.size ≤ h.data := by
    intro h hh
    have hge : ¬(h.data < nb.data) := by
      have := head?_dropWhile_false hh
      simpa using this
    have hmem : h ∈ free.dropWhile (fun b => decide (b.data < nb.data)) := by
      cases hcase : free.dropWhile (fun b => decide (b.data < nb.data)) with
      | nil => rw [hcase] at hh; cases hh
      | cons x xs =>
        rw [hcase] at hh
        cases hh
        exact List.mem_cons_self _ _
    have hd := hdisj h (hamem h hmem)
    have hp := hpos h (hamem h hmem)
    unfold Disj at hd
    omega
  have hsplit := hs
  rw [← hba, List.chain'_append] at hsplit
  obtain ⟨hsb, hsa, -⟩ := hsplit
  have hnsplit := hn
  rw [← hba, List.chain'_append] at hnsplit
  obtain ⟨hnb, hna, -⟩ := hnsplit
  constructor
  · rw [List.chain'_append]
    refine ⟨hsb, ?_, ?_⟩
    · rw [List.chain'_cons']
      exact ⟨hahead, hsa⟩
    · intro x hx y hy
      simp only [List.head?_cons, Option.mem_def, Option.some.injEq] at hy
      subst hy
      exact hbend x (mem_of_getLast? hx)
  · rw [List.chain'_append]
    refine ⟨hnb, ?_, ?_⟩
    · rw [List.chain'_cons']
      refine ⟨?_, hna⟩
      intro h hh
      have hmem : h ∈ free.dropWhile (fun b => decide (b.data < nb.data)) := by
        cases hcase : free.dropWhile (fun b => decide (b.data < nb.data)) with
        | nil => rw [hcase] at hh; cases hh
        | cons x xs =>
          rw [hcase] at hh
          cases hh
          exact List.mem_cons_self _ _
      intro hcon
      exact hnoAdj h (hamem h hmem) hcon.2 hcon.1
    · intro x hx y hy
      simp only [List.head?_cons, Option.mem_def, Option.some.injEq] at hy
      subst hy
      intro hcon
      rw [hnbHead] at hcon
      cases hcon.2


theorem splitBlock_exact {best : Block} {size : Nat} (free : List Block)
    (h : best.size = size) :
    splitBlock best size free = (best, removeFirst best free) := by
  unfold splitBlock
  rw [if_pos h]

theorem splitBlock_cut {best : Block} {size : Nat} (free : List Block)
    (h : ¬best.size = size) :
    splitBlock best size free =
      ({ best with size := size },
        replaceFirst best
          { data := best.data + size, size := best.size - size, isHead := false }
          free) := by
  unfold splitBlock
  rw [if_neg h]

theorem memInv_split {best : Block} {rest : List Block} {B : List Backing}
    (h : MemInv (best :: rest) B) (hB : BackWF B) {size : Nat}
    (hszpos : 0 < size) (hlt : size < best.size) :
    MemInv ({ best with size := size } ::
      { data := best.data + size, size := best.size - size, isHead := false } :: rest)
      B := by
  have hbmem : best ∈ best :: rest := List.mem_cons_self _ _
  have hbpos := h.pos best hbmem
  have hpw := h.disj
  rw [List.pairwise_cons] at hpw
  obtain ⟨hball, hprest⟩ := hpw
  obtain ⟨β0, hβ0, hfit⟩ := h.inB best hbmem
  have hfit2 : β0.start ≤ best.data ∧ best.data + best.size ≤ β0.start + β0.len := hfit
  have hβ0pos := hB.pos β0 hβ0
  constructor
  · intro b hb
    rcases List.mem_cons.mp hb with rfl | hb
    · exact hszpos
    rcases List.mem_cons.mp hb with rfl | hb
    · show 0 < best.size - size
      omega
    · exact h.pos b (List.mem_cons_of_mem _ hb)
  · rw [List.pairwise_cons]
    constructor
    · intro u hu
      rcases List.mem_cons.mp hu with rfl | hu
      · exact Or.inl (le_refl (best.data + size))
      · have hd := hball u hu
        unfold Disj at hd
        show best.data + size ≤ u.data ∨ u.data + u.size ≤ best.data
        omega
    · rw [List.pairwise_cons]
      refine ⟨?_, hprest⟩
      intro u hu
      have hd := hball u hu
      unfold Disj at hd
      show best.data + size + (best.size - size) ≤ u.data ∨
        u.data + u.size ≤ best.data + size
      omega
  · intro b hb
    rcases List.mem_cons.mp hb with rfl | hb
    · refine ⟨β0, hβ0, ?_⟩
      show β0.start ≤ best.data ∧ best.data + size ≤ β0.start + β0.len
      omega
    rcases List.mem_cons.mp hb with rfl | hb
    · refine ⟨β0, hβ0, ?_⟩
      show β0.start ≤ best.data + size ∧
        best.data + size + (best.size - size) ≤ β0.start + β0.len
      omega
    · exact h.inB b (List.mem_cons_of_mem _ hb)
  · intro b hb
    rcases List.mem_cons.mp hb with rfl | hb
    · show best.isHead = true ↔ ∃ β ∈ B, best.data = β.start
      exact h.headIff best hbmem
    rcases List.mem_cons.mp hb with rfl | hb
    · show false = true ↔ ∃ β ∈ B, best.data + size = β.start
      constructor
      · intro hcon; cases hcon
      · rintro ⟨β, hβ, he⟩
        exfalso
        have hβpos := hB.pos β hβ
        have heq : β = β0 := backing_eq_of_common hB hβ hβ0
          (p := best.data + size) (by omega) (by omega) (by omega) (by omega)
        rw [heq] at he
        omega
    · exact h.headIff b (List.mem_cons_of_mem _ hb)
  · intro r hr hrh
    rcases List.mem_cons.mp hr with rfl | hr
    · obtain ⟨l, hl, hle⟩ := h.leftCov best hbmem hrh
      rcases List.mem_cons.mp hl with rfl | hl
      · exfalso; omega
      · exact ⟨l, List.mem_cons_of_mem _ (List.mem_cons_of_mem _ hl), hle⟩
    rcases List.mem_cons.mp hr with rfl | hr
    · refine ⟨{ best with size := size }, List.mem_cons_self _ _, ?_⟩
      show best.data + size = best.data + size
      rfl
    · obtain ⟨l, hl, hle⟩ := h.leftCov r (List.mem_cons_of_mem _ hr) hrh
      rcases List.mem_cons.mp hl with hlb | hl
      · have hle2 : best.data + best.size = r.data := by rw [← hlb]; exact hle
        refine ⟨{ data := best.data + size, size := best.size - size, isHead := false },
          List.mem_cons_of_mem _ (List.mem_cons_self _ _), ?_⟩
        show best.data + size + (best.size - size) = r.data
        omega
      · exact ⟨l, List.mem_cons_of_mem _ (List.mem_cons_of_mem _ hl), hle⟩
  · intro β hβ p h1p h2p
    obtain ⟨b, hb, hc⟩ := h.cover β hβ p h1p h2p
    rcases List.mem_cons.mp hb with rfl | hb
    · by_cases hp : p < b.data + size
      · exact ⟨{ b with size := size }, List.mem_cons_self _ _, by
          show b.data ≤ p ∧ p < b.data + size
          omega⟩
      · exact ⟨{ data := b.data + size, size := b.size - size, isHead := false },
          List.mem_cons_of_mem _ (List.mem_cons_self _ _), by
          show b.data + size ≤ p ∧ p < b.data + size + (b.size - size)
          omega⟩
    · exact ⟨b, List.mem_cons_of_mem _ (List.mem_cons_of_mem _ hb), hc⟩

theorem memInv_fresh {all : List Block} {B : List Backing} (h : MemInv all B)
    (hB : BackWF B) {addr len : Nat} (hlen : 0 < len)
    (hfresh : FreshAddr addr len B) :
    MemInv ({ data := addr, size := len, isHead := true } :: all)
      (B ++ [{ start := addr, len := len }]) ∧
    BackWF (B ++ [{ start := addr, len := len }]) ∧
    (∀ b ∈ all, Disj b { data := addr, size := len, isHead := true }) ∧
    (∀ r ∈ all, r.isHead = false → addr + len ≠ r.data) := by
  have hdisjAll : ∀ b ∈ all, Disj b { data := addr, size := len, isHead := true } := by
    intro b hb
    obtain ⟨β, hβ, hf⟩ := h.inB b hb
    have hf2 : β.start ≤ b.data ∧ b.data + b.size ≤ β.start + β.len := hf
    have hx := hfresh β hβ
    show b.data + b.size ≤ addr ∨ addr + len ≤ b.data
    omega
  have hnoAdj : ∀ r ∈ all, r.isHead = false → addr + len ≠ r.data := by
    intro r hr hrh hcon
    obtain ⟨l, hl, hle⟩ := h.leftCov r hr hrh
    have hd := hdisjAll l hl
    have hp := h.pos l hl
    unfold Disj at hd
    simp only at hd
    omega
  have hnotB : ∀ b ∈ all, b.data ≠ addr := by
    intro b hb hcon
    obtain ⟨β, hβ, hf⟩ := h.inB b hb
    have hf2 : β.start ≤ b.data ∧ b.data + b.size ≤ β.start + β.len := hf
    have hx := hfresh β hβ
    have hp := h.pos b hb
    have hβp := hB.pos β hβ
    omega
  refine ⟨?_, ?_, hdisjAll, hnoAdj⟩
  · constructor
    · intro b hb
      rcases List.mem_cons.mp hb with rfl | hb
      · exact hlen
      · exact h.pos b hb
    · rw [List.pairwise_cons]
      exact ⟨fun b hb => (hdisjAll b hb).symm, h.disj⟩
    · intro b hb
      rcases List.mem_cons.mp hb with rfl | hb
      · refine ⟨{ start := addr, len := len }, ?_, ?_⟩
        · simp
        · show addr ≤ addr ∧ addr + len ≤ addr + len
          omega
      · obtain ⟨β, hβ, hf⟩ := h.inB b hb
        exact ⟨β, List.mem_append_left _ hβ, hf⟩
    · intro b hb
      rcases List.mem_cons.mp hb with rfl | hb
      · constructor
        · intro
          exact ⟨{ start := addr, len := len }, by simp, rfl⟩
        · intro
          rfl
      · constructor
        · intro hbh
          obtain ⟨β, hβ, he⟩ := (h.headIff b hb).mp hbh
          exact ⟨β, List.mem_append_left _ hβ, he⟩
        · rintro ⟨β, hβ, he⟩
          rcases List.mem_append.mp hβ with hβ | hβ
          · exact (h.headIff b hb).mpr ⟨β, hβ, he⟩
          · exfalso
            simp only [List.mem_singleton] at hβ
            subst hβ
            exact hnotB b hb he
    · intro r hr hrh
      rcases List.mem_cons.mp hr with rfl | hr
      · cases hrh
      · obtain ⟨l, hl, hle⟩ := h.leftCov r hr hrh
        exact ⟨l, List.mem_cons_of_mem _ hl, hle⟩
    · intro β hβ p h1p h2p
      rcases List.mem_append.mp hβ with hβ | hβ
      · obtain ⟨b, hb, hc⟩ := h.cover β hβ p h1p h2p
        exact ⟨b, List.mem_cons_of_mem _ hb, hc⟩
      · simp only [List.mem_singleton] at hβ
        subst hβ
        refine ⟨{ data := addr, size := len, isHead := true },
          List.mem_cons_self _ _, ?_⟩
        exact ⟨h1p, h2p⟩
  · constructor
    · rw [List.pairwise_append]
      refine ⟨hB.disj, List.pairwise_singleton _ _, ?_⟩
      intro β hβ γ hγ
      simp only [List.mem_singleton] at hγ
      subst hγ
      have := hfresh β hβ
      show β.start + β.len ≤ addr ∨ addr + len ≤ β.start
      omega
    · intro β hβ
      rcases List.mem_append.mp hβ with hβ | hβ
      · exact hB.pos β hβ
      · simp only [List.mem_singleton] at hβ
        subst hβ
        exact hlen

/-! ### The address index as the image of the used chain -/

theorem mapLookup_pairs_none {used : List Block} {ptr : Nat}
    (h : ∀ b ∈ used, b.data ≠ ptr) :
    mapLookup ptr (used.map fun b => (b.data, b)) = none := by
  induction used with
  | nil => rfl
  | cons x xs ih =>
    simp only [List.map_cons, mapLookup]
    rw [if_neg (h x (List.mem_cons_self _ _))]
    exact ih fun b hb => h b (List.mem_cons_of_mem _ hb)

theorem mapLookup_pairs_some {used : List Block} {ptr : Nat} {b : Block}
    (h : mapLookup ptr (used.map fun b => (b.data, b)) = some b) :
    b ∈ used ∧ b.data = ptr := by
  induction used with
  | nil => cases h
  | cons x xs ih =>
    simp only [List.map_cons, mapLookup] at h
    by_cases hx : x.data = ptr
    · rw [if_pos hx] at h
      injection h with h
      subst h
      exact ⟨List.mem_cons_self _ _, hx⟩
    · rw [if_neg hx] at h
      obtain ⟨hmem, he⟩ := ih h
      exact ⟨List.mem_cons_of_mem _ hmem, he⟩

theorem mapLookup_pairs_isSome {used : List Block} {ptr : Nat}
    (h : ptr ∈ used.map Block.data) :
    ∃ b, mapLookup ptr (used.map fun b => (b.data, b)) = some b := by
  induction used with
  | nil => cases h
  | cons x xs ih =>
    simp only [List.map_cons, mapLookup]
    by_cases hx : x.data = ptr
    · exact ⟨x, by rw [if_pos hx]⟩
    · rcases List.mem_cons.mp h with he | hmem
      · exact absurd he.symm hx
      · obtain ⟨b, hb⟩ := ih hmem
        exact ⟨b, by rw [if_neg hx]; exact hb⟩

theorem mapErase_pairs {used : List Block} {ptr : Nat} {b : Block}
    (h : mapLookup ptr (used.map fun b => (b.data, b)) = some b) :
    mapErase ptr (used.map fun b => (b.data, b)) =
      (removeFirst b used).map fun b => (b.data, b) := by
  induction used with
  | nil => cases h
  | cons x xs ih =>
    simp only [List.map_cons, mapLookup] at h
    by_cases hx : x.data = ptr
    · rw [if_pos hx] at h
      injection h with h
      subst h
      have hrf : removeFirst x (x :: xs) = xs := by
        unfold removeFirst
        rw [if_pos rfl]
      rw [hrf]
      simp only [List.map_cons, mapErase, if_pos hx]
    · rw [if_neg hx] at h
      have hxb : ¬x = b := fun he => hx (by rw [he]; exact (mapLookup_pairs_some h).2)
      simp only [List.map_cons, mapErase, if_neg hx, removeFirst, if_neg hxb]
      rw [ih h]

theorem mapInsert_pairs {used : List Block} {blk : Block}
    (h : ∀ b ∈ used, b.data ≠ blk.data) :
    mapInsert blk.data blk (used.map fun b => (b.data, b)) =
      ((blk :: used).map fun b => (b.data, b)) := by
  unfold mapInsert
  rw [mapLookup_pairs_none h]
  simp

/-! ### Splitting a block in place -/

theorem perm_extract (pre post used : List Block) (a : Block) :
    ((pre ++ a :: post) ++ used).Perm (a :: ((pre ++ post) ++ used)) := by
  have h1 : (pre ++ a :: post) ++ used = pre ++ a :: (post ++ used) := by
    rw [List.append_assoc]; rfl
  have h2 : (pre ++ post) ++ used = pre ++ (post ++ used) := List.append_assoc _ _ _
  rw [h1, h2]
  exact List.perm_middle

theorem chains_remove_mid {pre post : List Block} {best : Block}
    (hs : List.Chain' EndLe (pre ++ best :: post))
    (hn : List.Chain' NoMergeRel (pre ++ best :: post))
    (hpos : 0 < best.size) :
    List.Chain' EndLe (pre ++ post) ∧ List.Chain' NoMergeRel (pre ++ post) := by
  rw [List.chain'_append] at hs hn
  obtain ⟨hs1, hs2', hsl⟩ := hs
  obtain ⟨hslink, hs2⟩ := List.chain'_cons'.mp hs2'
  obtain ⟨hn1, hn2', hnl⟩ := hn
  obtain ⟨hnlink, hn2⟩ := List.chain'_cons'.mp hn2'
  constructor
  · rw [List.chain'_append]
    refine ⟨hs1, hs2, ?_⟩
    intro x hx y hy
    have h1 := hsl x hx best rfl
    have h2 := hslink y hy
    unfold EndLe at h1 h2 ⊢
    omega
  · rw [List.chain'_append]
    refine ⟨hn1, hn2, ?_⟩
    intro x hx y hy
    have h1 := hsl x hx best rfl
    have h2 := hslink y hy
    unfold EndLe at h1 h2
    intro hcon
    omega

theorem chains_replace_mid {pre post : List Block} {best : Block} {size : Nat}
    (hs : List.Chain' EndLe (pre ++ best :: post))
    (hn : List.Chain' NoMergeRel (pre ++ best :: post))
    (hsz : 0 < size) (hlt : size < best.size) :
    List.Chain' EndLe (pre ++
      { data := best.data + size, size := best.size - size, isHead := false } :: post) ∧
    List.Chain' NoMergeRel (pre ++
      { data := best.data + size, size := best.size - size, isHead := false } :: post) := by
  rw [List.chain'_append] at hs hn
  obtain ⟨hs1, hs2', hsl⟩ := hs
  obtain ⟨hslink, hs2⟩ := List.chain'_cons'.mp hs2'
  obtain ⟨hn1, hn2', hnl⟩ := hn
  obtain ⟨hnlink, hn2⟩ := List.chain'_cons'.mp hn2'
  constructor
  · refine chain'_append_cons hs1 hs2 ?_ ?_
    · intro x hx
      have h1 := hsl x hx best rfl
      unfold EndLe at h1
      show x.data + x.size ≤ best.data + size
      omega
    · intro h hh
      have h2 := hslink h hh
      unfold EndLe at h2
      show best.data + size + (best.size - size) ≤ h.data
      omega
  · refine chain'_append_cons hn1 hn2 ?_ ?_
    · intro x hx
      have h1 := hsl x hx best rfl
      unfold EndLe at h1
      intro hcon
      have h3 : x.data + x.size = best.data + size := hcon.1
      omega
    · intro h hh
      have h2 := hnlink h hh
      intro hcon
      refine h2 ⟨?_, hcon.2⟩
      have h3 : best.data + size + (best.size - size) = h.data := hcon.1
      omega

theorem split_push {free1 used : List Block} {B : List Backing} {best : Block}
    {size : Nat}
    (hmem : MemInv (free1 ++ used) B) (hB : BackWF B)
    (hs : List.Chain' EndLe free1) (hn : List.Chain' NoMergeRel free1)
    (hbmem : best ∈ free1) (hsz : 0 < size) (hle : size ≤ best.size) :
    MemInv ((splitBlock best size free1).2 ++ (splitBlock best size free1).1 :: used) B ∧
    List.Chain' EndLe (splitBlock best size free1).2 ∧
    List.Chain' NoMergeRel (splitBlock best size free1).2 ∧
    sumSizes (splitBlock best size free1).2 + size = sumSizes free1 ∧
    (splitBlock best size free1).1.size = size ∧
    (splitBlock best size free1).1.data = best.data ∧
    (splitBlock best size free1).1.isHead = best.isHead := by
  obtain ⟨pre, post, hdecomp, hnotmem⟩ := exists_first_decomp hbmem
  have hbpos : 0 < best.size := hmem.pos best (List.mem_append_left _ hbmem)
  subst hdecomp
  by_cases hexact : best.size = size
  · rw [splitBlock_exact _ hexact, removeFirst_append hnotmem]
    obtain ⟨hc1, hc2⟩ := chains_remove_mid hs hn hbpos
    refine ⟨?_, hc1, hc2, ?_, hexact, rfl, rfl⟩
    · refine memInv_perm ?_ hmem
      exact (perm_extract pre post used best).trans (List.perm_middle).symm
    · rw [sumSizes_append, sumSizes_append, sumSizes_cons]
      omega
  · have hlt : size < best.size := lt_of_le_of_ne hle (fun he => hexact he.symm)
    rw [splitBlock_cut _ hexact, replaceFirst_append hnotmem]
    obtain ⟨hc1, hc2⟩ := chains_replace_mid hs hn hsz hlt
    refine ⟨?_, hc1, hc2, ?_, rfl, rfl, rfl⟩
    · have h0 : MemInv (best :: ((pre ++ post) ++ used)) B :=
        memInv_perm (perm_extract pre post used best) hmem
      have h1 := memInv_split h0 hB hsz hlt
      refine memInv_perm ?_ h1
      refine List.Perm.symm ?_
      refine (List.perm_middle).trans ?_
      exact List.Perm.cons _ (perm_extract pre post used _)
    · rw [sumSizes_append, sumSizes_append, sumSizes_cons, sumSizes_cons]
      show sumSizes pre + (best.size - size + sumSizes post) + size =
        sumSizes pre + (best.size + sumSizes post)
      omega

/-! ### Rewrite equations for the public operations -/

theorem deallocate_none (ptr : Nat) (s : Pool)
    (hlook : mapLookup ptr s.addrIndex = none) :
    deallocate ptr s = (s, false) := by
  unfold deallocate
  rw [hlook]

theorem deallocate_some (ptr : Nat) (s : Pool) (curr : Block)
    (hlook : mapLookup ptr s.addrIndex = some curr) :
    deallocate ptr s =
      ({ freeBlocks := freeInsert curr s.freeBlocks
         usedBlocks := removeFirst curr s.usedBlocks
         totalBytes := s.totalBytes
         allocBytes := s.allocBytes - curr.size
         minBytes := s.minBytes
         addrIndex := mapErase ptr s.addrIndex }, true) := by
  unfold deallocate
  rw [hlook]
  rfl

theorem allocate_found (addr req : Nat) (s : Pool) (best : Block)
    (hfind : findUsableBlock (normalizeSize req) s.freeBlocks = some best) :
    allocate addr req s =
      ({ freeBlocks := (splitBlock best (normalizeSize req) s.freeBlocks).2
         usedBlocks :=
           (splitBlock best (normalizeSize req) s.freeBlocks).1 :: s.usedBlocks
         totalBytes := s.totalBytes
         allocBytes := s.allocBytes + normalizeSize req
         minBytes := s.minBytes
         addrIndex := mapInsert (splitBlock best (normalizeSize req) s.freeBlocks).1.data
           (splitBlock best (normalizeSize req) s.freeBlocks).1 s.addrIndex },
       (splitBlock best (normalizeSize req) s.freeBlocks).1.data) := by
  simp only [allocate]
  rw [hfind]

theorem allocate_miss (addr req : Nat) (s : Pool)
    (hfind : findUsableBlock (normalizeSize req) s.freeBlocks = none) :
    allocate addr req s =
      ({ freeBlocks := (splitBlock
           { data := addr, size := max (normalizeSize req) s.minBytes, isHead := true }
           (normalizeSize req)
           (insertSorted
             { data := addr, size := max (normalizeSize req) s.minBytes, isHead := true }
             s.freeBlocks)).2
         usedBlocks := (splitBlock
           { data := addr, size := max (normalizeSize req) s.minBytes, isHead := true }
           (normalizeSize req)
           (insertSorted
             { data := addr, size := max (normalizeSize req) s.minBytes, isHead := true }
             s.freeBlocks)).1 :: s.usedBlocks
         totalBytes := s.totalBytes + max (normalizeSize req) s.minBytes
         allocBytes := s.allocBytes + normalizeSize req
         minBytes := s.minBytes
         addrIndex := mapInsert (splitBlock
           { data := addr, size := max (normalizeSize req) s.minBytes, isHead := true }
           (normalizeSize req)
           (insertSorted
             { data := addr, size := max (normalizeSize req) s.minBytes, isHead := true }
             s.freeBlocks)).1.data
           (splitBlock
             { data := addr, size := max (normalizeSize req) s.minBytes, isHead := true }
             (normalizeSize req)
             (insertSorted
               { data := addr, size := max (normalizeSize req) s.minBytes, isHead := true }
               s.freeBlocks)).1 s.addrIndex },
       (splitBlock
         { data := addr, size := max (normalizeSize req) s.minBytes, isHead := true }
         (normalizeSize req)
         (insertSorted
           { data := addr, size := max (normalizeSize req) s.minBytes, isHead := true }
           s.freeBlocks)).1.data) := by
  simp only [allocate]
  rw [hfind]

theorem stepBackings_found {addr req : Nat} {s : Pool} {B : List Backing} {best : Block}
    (hfind : findUsableBlock (normalizeSize req) s.freeBlocks = some best) :
    stepBackings addr req s B = B := by
  unfold stepBackings
  rw [hfind]
  simp

theorem stepBackings_miss {addr req : Nat} {s : Pool} {B : List Backing}
    (hfind : findUsableBlock (normalizeSize req) s.freeBlocks = none) :
    stepBackings addr req s B =
      B ++ [{ start := addr, len := max (normalizeSize req) s.minBytes }] := by
  unfold stepBackings
  rw [hfind]
  simp

/-! ### The release core and preservation of the pool invariant -/

theorem release_core {free used2 : List Block} {curr : Block} {B : List Backing}
    (hmem : MemInv (free ++ curr :: used2) B) (hB : BackWF B)
    (hs : List.Chain' EndLe free) (hn : List.Chain' NoMergeRel free) :
    MemInv (freeInsert curr free ++ used2) B ∧
    List.Chain' EndLe (freeInsert curr free) ∧
    List.Chain' NoMergeRel (freeInsert curr free) ∧
    sumSizes (freeInsert curr free ++ used2) = sumSizes (free ++ curr :: used2) := by
  have hfr : FuseReach ((curr :: free) ++ used2) (freeInsert curr free ++ used2) :=
    fuseReach_append used2 (freeInsert_fuseReach curr free)
  have hperm : (free ++ curr :: used2).Perm ((curr :: free) ++ used2) :=
    List.perm_middle
  have hfr2 : FuseReach (free ++ curr :: used2) (freeInsert curr free ++ used2) :=
    fuseReach_congr hperm (List.Perm.refl _) hfr
  obtain ⟨hmem2, hsum⟩ := memInv_fuseReach hfr2 hmem hB
  have hpwapp := hmem.disj
  rw [List.pairwise_append] at hpwapp
  obtain ⟨hpwf, hpwr, hcross⟩ := hpwapp
  have hdisj : ∀ b ∈ free, Disj b curr :=
    fun b hb => hcross b hb curr (List.mem_cons_self _ _)
  have hposf : ∀ b ∈ free, 0 < b.size :=
    fun b hb => hmem.pos b (List.mem_append_left _ hb)
  have hcpos : 0 < curr.size :=
    hmem.pos curr (List.mem_append_right _ (List.mem_cons_self _ _))
  obtain ⟨hc1, hc2⟩ := freeInsert_chains curr free hs hn hdisj hposf hcpos
  exact ⟨hmem2, hc1, hc2, hsum⟩

theorem poolInv_init (minB : Nat) : PoolInv (initPool minB) [] := by
  constructor
  · constructor
    · intro b hb; cases hb
    · exact List.Pairwise.nil
    · intro b hb; cases hb
    · intro b hb; cases hb
    · intro b hb; cases hb
    · intro β hβ; cases hβ
  · constructor
    · exact List.Pairwise.nil
    · intro β hβ; cases hβ
  · exact List.chain'_nil
  · exact List.chain'_nil
  · rfl
  · rfl
  · rfl
  · rfl

theorem deallocate_poolInv (ptr : Nat) {s : Pool} {B : List Backing}
    (hInv : PoolInv s B) : PoolInv (deallocate ptr s).1 B := by
  cases hlook : mapLookup ptr s.addrIndex with
  | none => rw [deallocate_none ptr s hlook]; exact hInv
  | some curr =>
    rw [deallocate_some ptr s curr hlook]
    have hlook2 : mapLookup ptr (s.usedBlocks.map fun b => (b.data, b)) = some curr := by
      rw [← hInv.idx]; exact hlook
    obtain ⟨hcmem, hcdata⟩ := mapLookup_pairs_some hlook2
    have hup : s.usedBlocks.Perm (curr :: removeFirst curr s.usedBlocks) :=
      perm_removeFirst hcmem
    have hmem0 : MemInv (s.freeBlocks ++ curr :: removeFirst curr s.usedBlocks) B :=
      memInv_perm ((List.Perm.refl s.freeBlocks).append hup) hInv.mem
    obtain ⟨hmem2, hc1, hc2, hsum⟩ :=
      release_core hmem0 hInv.back hInv.sorted hInv.noMerge
    have hsumUsed0 : sumSizes s.usedBlocks =
        curr.size + sumSizes (removeFirst curr s.usedBlocks) := by
      rw [sumSizes_perm hup, sumSizes_cons]
    refine ⟨hmem2, hInv.back, hc1, hc2, ?_, ?_, hInv.sumB, ?_⟩
    · have h1 := hInv.sumUsed
      show sumSizes (removeFirst curr s.usedBlocks) = s.allocBytes - curr.size
      omega
    · have h1 := hInv.sumAll
      rw [sumSizes_append, sumSizes_append, sumSizes_cons] at hsum
      show sumSizes (freeInsert curr s.freeBlocks) +
        sumSizes (removeFirst curr s.usedBlocks) = s.totalBytes
      omega
    · show mapErase ptr s.addrIndex =
        (removeFirst curr s.usedBlocks).map fun b => (b.data, b)
      rw [hInv.idx]
      exact mapErase_pairs hlook2

theorem allocate_poolInv (addr req : Nat) {s : Pool} {B : List Backing}
    (hInv : PoolInv s B)
    (hfresh : findUsableBlock (normalizeSize req) s.freeBlocks = none →
      FreshAddr addr (max (normalizeSize req) s.minBytes) B) :
    PoolInv (allocate addr req s).1 (stepBackings addr req s B) := by
  have hszpos : 0 < normalizeSize req := by
    unfold normalizeSize; split <;> omega
  cases hfind : findUsableBlock (normalizeSize req) s.freeBlocks with
  | some best =>
    rw [allocate_found addr req s best hfind, stepBackings_found hfind]
    obtain ⟨hbmem, hble⟩ := findUsableBlock_mem hfind
    obtain ⟨hmemB, hc1, hc2, hsum, hbsz, hbdata, hbhead⟩ :=
      split_push hInv.mem hInv.back hInv.sorted hInv.noMerge hbmem hszpos hble
    have hposall : ∀ b ∈ s.freeBlocks ++ s.usedBlocks, 0 < b.size := hInv.mem.pos
    have hnewkey : ∀ b ∈ s.usedBlocks,
        b.data ≠ (splitBlock best (normalizeSize req) s.freeBlocks).1.data := by
      intro b hb
      rw [hbdata]
      have hpw := hInv.mem.disj
      rw [List.pairwise_append] at hpw
      have hd := hpw.2.2 best hbmem b hb
      intro hcon
      exact disj_data_ne hd (hposall best (List.mem_append_left _ hbmem))
        (hposall b (List.mem_append_right _ hb)) hcon.symm
    refine ⟨hmemB, hInv.back, hc1, hc2, ?_, ?_, hInv.sumB, ?_⟩
    · show sumSizes ((splitBlock best (normalizeSize req) s.freeBlocks).1 ::
        s.usedBlocks) = s.allocBytes + normalizeSize req
      rw [sumSizes_cons, hbsz]
      have h1 := hInv.sumUsed
      omega
    · show sumSizes (splitBlock best (normalizeSize req) s.freeBlocks).2 +
        sumSizes ((splitBlock best (normalizeSize req) s.freeBlocks).1 ::
          s.usedBlocks) = s.totalBytes
      rw [sumSizes_cons, hbsz]
      have h1 := hInv.sumAll
      omega
    · show mapInsert (splitBlock best (normalizeSize req) s.freeBlocks).1.data
        (splitBlock best (normalizeSize req) s.freeBlocks).1 s.addrIndex =
        ((splitBlock best (normalizeSize req) s.freeBlocks).1 ::
          s.usedBlocks).map fun b => (b.data, b)
      rw [hInv.idx]
      exact mapInsert_pairs hnewkey
  | none =>
    rw [allocate_miss addr req s hfind, stepBackings_miss hfind]
    have hfr := hfresh hfind
    have hlenpos : 0 < max (normalizeSize req) s.minBytes :=
      lt_of_lt_of_le hszpos (le_max_left _ _)
    obtain ⟨hmemf, hBf, hdisjf, hnoadjf⟩ :=
      memInv_fresh hInv.mem hInv.back hlenpos hfr
    obtain ⟨hs1, hn1⟩ := insertSorted_chains
      { data := addr, size := max (normalizeSize req) s.minBytes, isHead := true }
      s.freeBlocks hInv.sorted hInv.noMerge
      (fun b hb => hdisjf b (List.mem_append_left _ hb))
      (fun b hb => hInv.mem.pos b (List.mem_append_left _ hb))
      hlenpos rfl
      (fun r hr hrh => hnoadjf r (List.mem_append_left _ hr) hrh)
    have hpermf : (insertSorted
        { data := addr, size := max (normalizeSize req) s.minBytes, isHead := true }
        s.freeBlocks ++ s.usedBlocks).Perm
        ({ data := addr, size := max (normalizeSize req) s.minBytes, isHead := true } ::
          (s.freeBlocks ++ s.usedBlocks)) :=
      (insertSorted_perm _ s.freeBlocks).append_right s.usedBlocks
    have hmem1 := memInv_perm hpermf.symm hmemf
    have hbmem1 : ({ data := addr, size := max (normalizeSize req) s.minBytes, isHead := true } : Block) ∈ insertSorted { data := addr, size := max (normalizeSize req) s.minBytes, isHead := true } s.freeBlocks :=
      insertSorted_mem _ _
    have hble1 : normalizeSize req ≤ ({ data := addr, size := max (normalizeSize req) s.minBytes, isHead := true } : Block).size :=
      le_max_left _ _
    obtain ⟨hmemB, hc1, hc2, hsum, hbsz, hbdata, hbhead⟩ :=
      split_push hmem1 hBf hs1 hn1 hbmem1 hszpos hble1
    have hnewkey : ∀ b ∈ s.usedBlocks, b.data ≠ (splitBlock
        { data := addr, size := max (normalizeSize req) s.minBytes, isHead := true }
        (normalizeSize req)
        (insertSorted
          { data := addr, size := max (normalizeSize req) s.minBytes, isHead := true }
          s.freeBlocks)).1.data := by
      intro b hb
      rw [hbdata]
      have hd := hdisjf b (List.mem_append_right _ hb)
      have hd2 : b.data + b.size ≤ addr ∨
          addr + max (normalizeSize req) s.minBytes ≤ b.data := hd
      have hp := hInv.mem.pos b (List.mem_append_right _ hb)
      intro hcon
      have hcon2 : b.data = addr := hcon
      omega
    have hsumIns := sumSizes_perm (insertSorted_perm
      { data := addr, size := max (normalizeSize req) s.minBytes, isHead := true }
      s.freeBlocks)
    rw [sumSizes_cons] at hsumIns
    have hsumIns2 : sumSizes (insertSorted
        { data := addr, size := max (normalizeSize req) s.minBytes, isHead := true }
        s.freeBlocks) =
        max (normalizeSize req) s.minBytes + sumSizes s.freeBlocks := hsumIns
    refine ⟨hmemB, hBf, hc1, hc2, ?_, ?_, ?_, ?_⟩
    · show sumSizes ((splitBlock
        { data := addr, size := max (normalizeSize req) s.minBytes, isHead := true }
        (normalizeSize req)
        (insertSorted
          { data := addr, size := max (normalizeSize req) s.minBytes, isHead := true }
          s.freeBlocks)).1 :: s.usedBlocks) = s.allocBytes + normalizeSize req
      rw [sumSizes_cons, hbsz]
      have h1 := hInv.sumUsed
      omega
    · show sumSizes (splitBlock
        { data := addr, size := max (normalizeSize req) s.minBytes, isHead := true }
        (normalizeSize req)
        (insertSorted
          { data := addr, size := max (normalizeSize req) s.minBytes, isHead := true }
          s.freeBlocks)).2 + sumSizes ((splitBlock
        { data := addr, size := max (normalizeSize req) s.minBytes, isHead := true }
        (normalizeSize req)
        (insertSorted
          { data := addr, size := max (normalizeSize req) s.minBytes, isHead := true }
          s.freeBlocks)).1 :: s.usedBlocks) =
        s.totalBytes + max (normalizeSize req) s.minBytes
      rw [sumSizes_cons, hbsz]
      have h1 := hInv.sumAll
      omega
    · show s.totalBytes + max (normalizeSize req) s.minBytes =
        sumLens (B ++ [{ start := addr, len := max (normalizeSize req) s.minBytes }])
      rw [sumLens_append]
      have h1 := hInv.sumB
      have h2 : sumLens [{ start := addr, len := max (normalizeSize req) s.minBytes }] = max (normalizeSize req) s.minBytes := by
        simp [sumLens]
      omega
    · show mapInsert (splitBlock
        { data := addr, size := max (normalizeSize req) s.minBytes, isHead := true }
        (normalizeSize req)
        (insertSorted
          { data := addr, size := max (normalizeSize req) s.minBytes, isHead := true }
          s.freeBlocks)).1.data
        (splitBlock
          { data := addr, size := max (normalizeSize req) s.minBytes, isHead := true }
          (normalizeSize req)
          (insertSorted
            { data := addr, size := max (normalizeSize req) s.minBytes, isHead := true }
            s.freeBlocks)).1 s.addrIndex =
        ((splitBlock
          { data := addr, size := max (normalizeSize req) s.minBytes, isHead := true }
          (normalizeSize req)
          (insertSorted
            { data := addr, size := max (normalizeSize req) s.minBytes, isHead := true }
            s.freeBlocks)).1 :: s.usedBlocks).map fun b => (b.data, b)
      rw [hInv.idx]
      exact mapInsert_pairs hnewkey

theorem reach_poolInv {s : Pool} {B : List Backing} (h : Reach s B) : PoolInv s B := by
  induction h with
  | init minB => exact poolInv_init minB
  | stepAlloc addr req s B hr hfresh ih => exact allocate_poolInv addr req ih hfresh
  | stepDealloc ptr s B hr ih => exact deallocate_poolInv ptr ih

/-! ### Auxiliary facts for the claims -/

theorem splitBlock_fst_size (best : Block) (size : Nat) (free : List Block) :
    (splitBlock best size free).1.size = size := by
  by_cases h : best.size = size
  · rw [splitBlock_exact _ h]; exact h
  · rw [splitBlock_cut _ h]

theorem allocate_headBlock (addr req : Nat) (s : Pool) :
    ∃ blk, (allocate addr req s).1.usedBlocks = blk :: s.usedBlocks ∧
      (allocate addr req s).2 = blk.data ∧ blk.size = normalizeSize req := by
  cases hfind : findUsableBlock (normalizeSize req) s.freeBlocks with
  | some best =>
    rw [allocate_found addr req s best hfind]
    exact ⟨(splitBlock best (normalizeSize req) s.freeBlocks).1, rfl, rfl,
      splitBlock_fst_size _ _ _⟩
  | none =>
    rw [allocate_miss addr req s hfind]
    exact ⟨_, rfl, rfl, splitBlock_fst_size _ _ _⟩

/-! ### The claims -/

/-- C1 (amended): in every state reachable by any sequence of public
operations, the FREE chain, iterated from its head via next links, yields
blocks with strictly increasing data addresses.  (The used chain does not:
`allocate` pushes at its head, so it is ordered most-recently-allocated
first; see the counterexample.) -/
theorem C1_free_chain_sorted (s : Pool) (B : List Backing) (h : Reach s B) :
    List.Chain' DataLt s.freeBlocks := by
  have hInv := reach_poolInv h
  have hpos : ∀ b ∈ s.freeBlocks, 0 < b.size :=
    fun b hb => hInv.mem.pos b (List.mem_append_left _ hb)
  exact List.chain'_iff_pairwise.mpr (pairwise_dataLt_of_chain hInv.sorted hpos)

/-- C1 witness: the free chain of a concrete reachable state is strictly
increasing. -/
theorem C1_free_chain_sorted_witness :
    List.Chain' DataLt ((allocate 100 1 (initPool 4)).1).freeBlocks :=
  C1_free_chain_sorted _ _
    (Reach.stepAlloc 100 1 (initPool 4) [] (Reach.init 4) (by decide))

/-- C1 counterexample: after two 1-byte allocations carved from one backing
chunk, the used chain iterated from its head is [101, 100] — strictly
DECREASING addresses, because `allocate` pushes each new block at the head
of the used chain.  So the claim that both chains are address sorted in
every reachable state is false. -/
theorem C1_counterexample :
    Reach ((allocate 101 1 ((allocate 100 1 (initPool 4)).1)).1)
      (stepBackings 101 1 ((allocate 100 1 (initPool 4)).1)
        (stepBackings 100 1 (initPool 4) [])) ∧
    ((allocate 101 1 ((allocate 100 1 (initPool 4)).1)).1).usedBlocks =
      [⟨101, 1, false⟩, ⟨100, 1, true⟩] ∧
    ¬ List.Chain' DataLt
      ((allocate 101 1 ((allocate 100 1 (initPool 4)).1)).1).usedBlocks := by
  refine ⟨?_, by decide, ?_⟩
  · exact Reach.stepAlloc 101 1 _ _
      (Reach.stepAlloc 100 1 (initPool 4) [] (Reach.init 4) (by decide)) (by decide)
  · intro hcon
    rw [show ((allocate 101 1 ((allocate 100 1 (initPool 4)).1)).1).usedBlocks =
      [⟨101, 1, false⟩, ⟨100, 1, true⟩] from by decide] at hcon
    have h2 : DataLt ⟨101, 1, false⟩ ⟨100, 1, true⟩ := (List.chain'_cons.mp hcon).1
    have h3 : (101 : Nat) < 100 := h2
    omega

/-- C2: `releaseBlock` coalesces only legally — the free chain after a
release is obtained from the old free chain plus the released block by at
most two fusions, each merging an address-adjacent pair `x, y` with
`x.data + x.size = y.data` whose right member `y` is not a head block
(merging into the predecessor takes `y` = the released block, so it requires
the released block's `isHead` to be false; absorbing the successor takes `y`
= the successor).  Consequently, in every reachable state every free block
fits inside a single backing allocation: blocks carved from two different
backing allocations are never coalesced into one free block, even if the
allocations are address adjacent. -/
theorem C2_head_boundary :
    (∀ (curr : Block) (free : List Block),
      FuseReach (curr :: free) (freeInsert curr free)) ∧
    (∀ (s : Pool) (B : List Backing), Reach s B →
      ∀ b ∈ s.freeBlocks, ∃ β ∈ B, fits b β) := by
  refine ⟨freeInsert_fuseReach, ?_⟩
  intro s B h b hb
  exact (reach_poolInv h).mem.inB b (List.mem_append_left _ hb)

/-- C2 witness: the single free block of a concrete reachable state fits in
its backing allocation. -/
theorem C2_head_boundary_witness :
    ∃ β ∈ stepBackings 100 1 (initPool 4) [], fits ⟨101, 3, false⟩ β :=
  C2_head_boundary.2 _ _
    (Reach.stepAlloc 100 1 (initPool 4) [] (Reach.init 4) (by decide))
    ⟨101, 3, false⟩ (by decide)

/-- C3: `findUsableBlock` is a strict best fit: a returned block satisfies
the request, has the smallest size among all satisfying blocks, and is the
first such block in chain order (every earlier block that satisfies the
request is strictly larger); it returns nothing exactly when no free block
is large enough.  In particular, with free blocks of sizes 100, 50 and 30,
`allocate(40)` consumes the 50-byte block, leaving a 10-byte non-head
remainder in its chain position, and leaves the 100-byte block alone. -/
theorem C3_best_fit :
    (∀ (reqSize : Nat) (free : List Block) (b : Block),
      findUsableBlock reqSize free = some b →
      reqSize ≤ b.size ∧
      (∀ c ∈ free, reqSize ≤ c.size → b.size ≤ c.size) ∧
      ∃ pre post, free = pre ++ b :: post ∧
        ∀ c ∈ pre, reqSize ≤ c.size → b.size < c.size) ∧
    (∀ (reqSize : Nat) (free : List Block),
      findUsableBlock reqSize free = none ↔ ∀ c ∈ free, c.size < reqSize) ∧
    allocate 0 40 { freeBlocks := [⟨1000, 100, true⟩, ⟨2000, 50, true⟩, ⟨3000, 30, true⟩], usedBlocks := [], totalBytes := 180, allocBytes := 0, minBytes := 4, addrIndex := [] } =
      ({ freeBlocks := [⟨1000, 100, true⟩, ⟨2040, 10, false⟩, ⟨3000, 30, true⟩], usedBlocks := [⟨2000, 40, true⟩], totalBytes := 180, allocBytes := 40, minBytes := 4, addrIndex := [(2000, ⟨2000, 40, true⟩)] }, 2000) := by
  refine ⟨?_, fun reqSize free => findUsableBlock_none, by decide⟩
  intro reqSize free b h
  obtain ⟨pre, post, heq, hb, hpre, -⟩ := findUsableBlock_some h
  exact ⟨hb, findUsableBlock_min h, pre, post, heq, hpre⟩

/-- C3 witness: on the free chain with sizes 100, 50, 30, a request of 40
returns the 50-byte block; it is minimal among the fitting blocks and the
(strictly larger) 100-byte block is the only earlier fitting block. -/
theorem C3_best_fit_witness :
    (40:Nat) ≤ (⟨2000, 50, true⟩ : Block).size ∧
    (∀ c ∈ [(⟨1000, 100, true⟩ : Block), ⟨2000, 50, true⟩, ⟨3000, 30, true⟩],
      40 ≤ c.size → (⟨2000, 50, true⟩ : Block).size ≤ c.size) ∧
    ∃ pre post,
      [(⟨1000, 100, true⟩ : Block), ⟨2000, 50, true⟩, ⟨3000, 30, true⟩] =
        pre ++ (⟨2000, 50, true⟩ : Block) :: post ∧
      ∀ c ∈ pre, 40 ≤ c.size → (⟨2000, 50, true⟩ : Block).size < c.size :=
  C3_best_fit.1 40 [⟨1000, 100, true⟩, ⟨2000, 50, true⟩, ⟨3000, 30, true⟩]
    ⟨2000, 50, true⟩ (by decide)

/-- C4: `splitBlock` uses an exactly-fitting block whole (removing it from
the free chain); otherwise it cuts it: the returned block keeps the original
address and `isHead` flag with size shrunk to the request, and a fresh
non-head descriptor of size `best.size - size` at address `best.data + size`
takes the original block's position in the free chain, inheriting its
successor. -/
theorem C4_splitBlock (best : Block) (size : Nat) (pre post : List Block)
    (hnotmem : best ∉ pre) :
    (best.size = size →
      splitBlock best size (pre ++ best :: post) = (best, pre ++ post)) ∧
    (best.size ≠ size →
      splitBlock best size (pre ++ best :: post) =
        ({ data := best.data, size := size, isHead := best.isHead },
          pre ++ { data := best.data + size, size := best.size - size, isHead := false } :: post)) := by
  constructor
  · intro h
    rw [splitBlock_exact _ h, removeFirst_append hnotmem]
  · intro h
    rw [splitBlock_cut _ h, replaceFirst_append hnotmem]

/-- C4 witness: cutting a 5-byte block at address 10 for a 3-byte request
keeps ⟨10, 3⟩ (still a head block) and leaves the non-head remainder
⟨13, 2⟩ in the original chain position. -/
theorem C4_splitBlock_witness :
    splitBlock ⟨10, 5, true⟩ 3 [⟨0, 2, false⟩, ⟨10, 5, true⟩] =
      (⟨10, 3, true⟩, [⟨0, 2, false⟩, ⟨13, 2, false⟩]) :=
  (C4_splitBlock ⟨10, 5, true⟩ 3 [⟨0, 2, false⟩] [] (by decide)).2 (by decide)

/-- C5: `deallocate` on a pointer that is not tracked in the address index
returns false and leaves the whole pool state unchanged (both chains, the
index, `allocBytes`, `totalBytes`); and in any reachable state, of two
consecutive `deallocate` calls on the same pointer the second one returns
false and leaves `allocatedSize()` unchanged. -/
theorem C5_unknown_pointer :
    (∀ (ptr : Nat) (s : Pool), mapLookup ptr s.addrIndex = none →
      deallocate ptr s = (s, false)) ∧
    (∀ (ptr : Nat) (s : Pool) (B : List Backing), Reach s B →
      (deallocate ptr (deallocate ptr s).1).2 = false ∧
      allocatedSize (deallocate ptr (deallocate ptr s).1).1 =
        allocatedSize (deallocate ptr s).1) := by
  refine ⟨deallocate_none, ?_⟩
  intro ptr s B hr
  have hInv := reach_poolInv hr
  cases hlook : mapLookup ptr s.addrIndex with
  | none =>
    rw [deallocate_none ptr s hlook]
    rw [deallocate_none ptr s hlook]
    exact ⟨rfl, rfl⟩
  | some curr =>
    have hlook2 : mapLookup ptr (s.usedBlocks.map fun b => (b.data, b)) = some curr := by
      rw [← hInv.idx]; exact hlook
    obtain ⟨hcmem, hcdata⟩ := mapLookup_pairs_some hlook2
    have hpwu : List.Pairwise Disj s.usedBlocks :=
      (List.pairwise_append.mp hInv.mem.disj).2.1
    have hup := perm_removeFirst hcmem
    have hpw2 : List.Pairwise Disj (curr :: removeFirst curr s.usedBlocks) :=
      (hup.pairwise_iff (fun hd => hd.symm)).mp hpwu
    rw [List.pairwise_cons] at hpw2
    have hkeynone : ∀ b ∈ removeFirst curr s.usedBlocks, b.data ≠ ptr := by
      intro b hb hcon
      have hd := hpw2.1 b hb
      have hp1 : 0 < curr.size := hInv.mem.pos curr (List.mem_append_right _ hcmem)
      have hp2 : 0 < b.size := hInv.mem.pos b
        (List.mem_append_right _ (hup.symm.subset (List.mem_cons_of_mem _ hb)))
      exact disj_data_ne hd hp1 hp2 (by rw [hcdata, hcon])
    have hlook3 : mapLookup ptr (mapErase ptr s.addrIndex) = none := by
      rw [hInv.idx, mapErase_pairs hlook2]
      exact mapLookup_pairs_none hkeynone
    rw [deallocate_some ptr s curr hlook]
    rw [deallocate_none ptr _ hlook3]
    exact ⟨rfl, rfl⟩

/-- C5 witness: deallocating an untracked pointer on a freshly constructed
pool returns false and changes nothing; likewise for the double call. -/
theorem C5_unknown_pointer_witness :
    deallocate 55 (initPool 4) = (initPool 4, false) :=
  C5_unknown_pointer.1 55 (initPool 4) (by decide)

/-- C6: accounting identities in every reachable state: `allocBytes` equals
the sum of the used-chain sizes, `totalBytes` equals the sum of the byte
counts requested from the backing allocator for all live backing
allocations, and `allocatedSize() + sum(free sizes) = totalSize() − overhead`
where `overhead` is the descriptor pool's reserved byte count. -/
theorem C6_accounting (s : Pool) (B : List Backing) (h : Reach s B) (povh : Nat) :
    s.allocBytes = sumSizes s.usedBlocks ∧
    s.totalBytes = sumLens B ∧
    allocatedSize s + sumSizes s.freeBlocks = totalSize s povh - povh := by
  have hInv := reach_poolInv h
  refine ⟨hInv.sumUsed.symm, hInv.sumB, ?_⟩
  unfold allocatedSize totalSize
  have h1 := hInv.sumAll
  have h2 := hInv.sumUsed
  omega

/-- C6 witness: the accounting identity at a concrete reachable state, with
descriptor-pool overhead 7. -/
theorem C6_accounting_witness :
    ((allocate 100 1 (initPool 4)).1).allocBytes =
      sumSizes ((allocate 100 1 (initPool 4)).1).usedBlocks ∧
    ((allocate 100 1 (initPool 4)).1).totalBytes =
      sumLens (stepBackings 100 1 (initPool 4) []) ∧
    allocatedSize ((allocate 100 1 (initPool 4)).1) +
      sumSizes ((allocate 100 1 (initPool 4)).1).freeBlocks =
      totalSize ((allocate 100 1 (initPool 4)).1) 7 - 7 :=
  C6_accounting _ _
    (Reach.stepAlloc 100 1 (initPool 4) [] (Reach.init 4) (by decide)) 7

/-- C8 (code bug): on the block-splitting path, descriptor-pool exhaustion
is NOT fatal: `splitBlock` silently returns (`if (!newBlock) return;` has no
assertion), and `allocate` completes normally, handing out the unsplit block
while leaving it on the free chain — the block ends up on both chains at
once.  Failing input: pool with one free 2-byte block at address 102 (the
state after `allocate(2)` on a fresh pool with minBytes 4), request 1 byte,
descriptor pool exhausted at the split. -/
theorem C8_split_exhaustion_not_fatal :
    allocateF (some 999) true false 1 ((allocate 100 2 (initPool 4)).1) =
      Except.ok
        ({ freeBlocks := [⟨102, 2, false⟩], usedBlocks := [⟨102, 2, false⟩, ⟨100, 2, true⟩], totalBytes := 4, allocBytes := 3, minBytes := 4, addrIndex := [(102, ⟨102, 2, false⟩), (100, ⟨100, 2, true⟩)] }, 102) ∧
    (∀ (e : String), allocateF (some 999) true false 1 ((allocate 100 2 (initPool 4)).1) ≠ Except.error e) := by
  have hval : allocateF (some 999) true false 1 ((allocate 100 2 (initPool 4)).1) =
      Except.ok
        ({ freeBlocks := [⟨102, 2, false⟩], usedBlocks := [⟨102, 2, false⟩, ⟨100, 2, true⟩], totalBytes := 4, allocBytes := 3, minBytes := 4, addrIndex := [(102, ⟨102, 2, false⟩), (100, ⟨100, 2, true⟩)] }, 102) := by
    rfl
  refine ⟨hval, ?_⟩
  intro e hcon
  rw [hval] at hcon
  cases hcon

/-- C9: every byte in the range returned by `allocate(size)` is zero at the
moment of return, whatever the previous contents of that memory were; the
returned block's size equals the normalized request, so the caller gets
exactly `size` usable zeroed bytes. -/
theorem C9_zero_fill (addr req : Nat) (s : Pool) (mem : Nat → Nat) (i : Nat)
    (hi : i < req) :
    (allocateMem addr req s mem).2.2 ((allocateMem addr req s mem).2.1 + i) = 0 := by
  obtain ⟨blk, hused, hptr, hsz⟩ := allocate_headBlock addr req s
  have hnorm : normalizeSize req = req := by
    unfold normalizeSize
    rw [if_neg (by omega)]
  simp only [allocateMem]
  rw [hused]
  show memsetRange mem blk.data blk.size ((allocate addr req s).2 + i) = 0
  rw [hptr]
  unfold memsetRange
  rw [if_pos ⟨Nat.le_add_right _ _, by rw [hsz, hnorm]; omega⟩]

/-- C9 witness: the first byte returned by a 1-byte allocation over the
all-37 memory is zero. -/
theorem C9_zero_fill_witness :
    (allocateMem 100 1 (initPool 4) (fun _ => 37)).2.2
      ((allocateMem 100 1 (initPool 4) (fun _ => 37)).2.1 + 0) = 0 :=
  C9_zero_fill 100 1 (initPool 4) (fun _ => 37) 0 (by decide)

/-! ### Round trip: allocate a batch, then free every pointer -/

theorem runAllocs_data (l : List (Nat × Nat)) (s : Pool) :
    (runAllocs l s).1.usedBlocks.map Block.data =
      (runAllocs l s).2.reverse ++ s.usedBlocks.map Block.data := by
  induction l generalizing s with
  | nil => simp [runAllocs]
  | cons a rest ih =>
    simp only [runAllocs]
    rw [ih]
    obtain ⟨blk, hused, hptr, -⟩ := allocate_headBlock a.1 a.2 s
    rw [hused, hptr]
    simp [List.append_assoc]

theorem runAllocs_reach (l : List (Nat × Nat)) (s : Pool) (B : List Backing)
    (h : Reach s B) (hv : ValidTrace s B l) :
    ∃ B2, Reach (runAllocs l s).1 B2 := by
  induction l generalizing s B with
  | nil => exact ⟨B, h⟩
  | cons a rest ih =>
    obtain ⟨hfr, hv2⟩ := hv
    simp only [runAllocs]
    exact ih _ _ (Reach.stepAlloc a.1 a.2 s B h hfr) hv2

theorem runDeallocs_empties (ptrs : List Nat) :
    ∀ (s : Pool) (B : List Backing), Reach s B →
    ptrs.Perm (s.usedBlocks.map Block.data) →
    (runDeallocs ptrs s).usedBlocks = [] ∧ (runDeallocs ptrs s).allocBytes = 0 := by
  induction ptrs with
  | nil =>
    intro s B h hperm
    have hmap : s.usedBlocks.map Block.data = [] := hperm.symm.eq_nil
    have hused : s.usedBlocks = [] := List.map_eq_nil_iff.mp hmap
    have hInv := reach_poolInv h
    have halloc : s.allocBytes = 0 := by
      have h1 := hInv.sumUsed
      rw [hused] at h1
      exact h1.symm
    exact ⟨hused, halloc⟩
  | cons p rest ih =>
    intro s B h hperm
    have hInv := reach_poolInv h
    have hmem : p ∈ s.usedBlocks.map Block.data :=
      hperm.subset (List.mem_cons_self _ _)
    obtain ⟨b, hlook⟩ := mapLookup_pairs_isSome hmem
    obtain ⟨hbmem, hbdata⟩ := mapLookup_pairs_some hlook
    have hlookIdx : mapLookup p s.addrIndex = some b := by
      rw [hInv.idx]; exact hlook
    have hreach2 : Reach (deallocate p s).1 B := Reach.stepDealloc p s B h
    simp only [runDeallocs]
    apply ih _ B hreach2
    have husedeq : (deallocate p s).1.usedBlocks = removeFirst b s.usedBlocks := by
      rw [deallocate_some p s b hlookIdx]
    rw [husedeq]
    have hup := perm_removeFirst hbmem
    have hmapperm : (s.usedBlocks.map Block.data).Perm
        (b.data :: (removeFirst b s.usedBlocks).map Block.data) := hup.map _
    rw [hbdata] at hmapperm
    exact (hperm.trans hmapperm).cons_inv

/-- C7: from a fresh pool, run any valid sequence of allocations followed by
deallocations of all the returned pointers, in any order: the final state
satisfies allocatedSize() = 0 and numUsedBlocks() = 0. -/
theorem C7_round_trip (minB : Nat) (l : List (Nat × Nat)) (ptrs : List Nat)
    (hv : ValidTrace (initPool minB) [] l)
    (hperm : ptrs.Perm (runAllocs l (initPool minB)).2) :
    allocatedSize (runDeallocs ptrs (runAllocs l (initPool minB)).1) = 0 ∧
    numUsedBlocks (runDeallocs ptrs (runAllocs l (initPool minB)).1) = 0 := by
  obtain ⟨B2, hreach⟩ := runAllocs_reach l (initPool minB) [] (Reach.init minB) hv
  have hdata := runAllocs_data l (initPool minB)
  rw [show (initPool minB).usedBlocks.map Block.data = [] from rfl,
    List.append_nil] at hdata
  have hperm2 : ptrs.Perm ((runAllocs l (initPool minB)).1.usedBlocks.map Block.data) := by
    rw [hdata]
    exact hperm.trans (List.reverse_perm _).symm
  obtain ⟨hused, halloc⟩ := runDeallocs_empties ptrs _ B2 hreach hperm2
  refine ⟨halloc, ?_⟩
  unfold numUsedBlocks
  rw [hused]
  rfl

/-- C7 witness: allocate 2 bytes then 1 byte from a fresh pool (pointers 100
and 102) and free them in reverse order: everything is returned. -/
theorem C7_round_trip_witness :
    allocatedSize (runDeallocs [102, 100] (runAllocs [(100, 2), (0, 1)] (initPool 4)).1) = 0 ∧
    numUsedBlocks (runDeallocs [102, 100] (runAllocs [(100, 2), (0, 1)] (initPool 4)).1) = 0 :=
  C7_round_trip 4 [(100, 2), (0, 1)] [102, 100] (by decide) (by decide)

/-! ### Teardown: maximal coalescing and head-block tiling -/

theorem releaseAll_core {B : List Backing} (hB : BackWF B) :
    ∀ (used free : List Block), MemInv (free ++ used) B →
    List.Chain' EndLe free → List.Chain' NoMergeRel free →
    MemInv (releaseAll used free) B ∧
    List.Chain' EndLe (releaseAll used free) ∧
    List.Chain' NoMergeRel (releaseAll used free) := by
  intro used
  induction used with
  | nil =>
    intro free hmem hs hn
    rw [List.append_nil] at hmem
    exact ⟨hmem, hs, hn⟩
  | cons b rest ih =>
    intro free hmem hs hn
    simp only [releaseAll]
    obtain ⟨hmem2, hc1, hc2, -⟩ := release_core hmem hB hs hn
    exact ih _ hmem2 hc1 hc2

theorem allFree_heads {free : List Block} {B : List Backing}
    (hmem : MemInv free B) (hs : List.Chain' EndLe free)
    (hn : List.Chain' NoMergeRel free) :
    ∀ b ∈ free, b.isHead = true := by
  intro b hb
  by_contra hcon
  have hbh : b.isHead = false := by
    cases hx : b.isHead
    · rfl
    · exact absurd hx hcon
  obtain ⟨l, hl, hle⟩ := hmem.leftCov b hb hbh
  have hpw := pairwise_endLe hs
  obtain ⟨p, q, hdecomp, -⟩ := exists_first_decomp hl
  have hlpos : 0 < l.size := hmem.pos l hl
  have hbpos : 0 < b.size := hmem.pos b hb
  subst hdecomp
  have hbq : b ∈ q := by
    rcases List.mem_append.mp hb with hbp | hbc
    · exfalso
      have hcross := (List.pairwise_append.mp hpw).2.2 b hbp l (List.mem_cons_self _ _)
      unfold EndLe at hcross
      omega
    · rcases List.mem_cons.mp hbc with hbl | hbq2
      · exfalso
        have hde : b.data = l.data := by rw [hbl]
        omega
      · exact hbq2
  have hsq := hs
  rw [List.chain'_append] at hsq
  have hchain_lq := hsq.2.1
  have hnq := hn
  rw [List.chain'_append] at hnq
  have hchain_nlq := hnq.2.1
  cases hq : q with
  | nil => rw [hq] at hbq; cases hbq
  | cons c q2 =>
    rw [hq] at hchain_lq hchain_nlq hbq
    have hlc : EndLe l c := (List.chain'_cons.mp hchain_lq).1
    rcases List.mem_cons.mp hbq with hbc2 | hbq2
    · have hnm : NoMergeRel l c := (List.chain'_cons.mp hchain_nlq).1
      apply hnm
      constructor
      · rw [hle, hbc2]
      · rw [← hbc2]
        exact hbh
    · have hpw2 := hpw
      rw [List.pairwise_append, hq] at hpw2
      have hpwlq := hpw2.2.1
      rw [List.pairwise_cons] at hpwlq
      have hpwc := hpwlq.2
      rw [List.pairwise_cons] at hpwc
      have hcb : EndLe c b := hpwc.1 b hbq2
      have hcmem : c ∈ p ++ l :: q := by
        rw [hq]
        exact List.mem_append_right _ (List.mem_cons_of_mem _ (List.mem_cons_self _ _))
      have hcpos : 0 < c.size := hmem.pos c hcmem
      unfold EndLe at hlc hcb
      omega

theorem head_size_eq_len {free : List Block} {B : List Backing}
    (hmem : MemInv free B) (hB : BackWF B)
    (hheads : ∀ b ∈ free, b.isHead = true) :
    ∀ b ∈ free, ∃ β ∈ B, b.data = β.start ∧ b.size = β.len := by
  intro b hb
  obtain ⟨β, hβ, hstart⟩ := (hmem.headIff b hb).mp (hheads b hb)
  obtain ⟨β0, hβ0, hfit⟩ := hmem.inB b hb
  have hfit2 : β0.start ≤ b.data ∧ b.data + b.size ≤ β0.start + β0.len := hfit
  have hbpos := hmem.pos b hb
  have hβpos := hB.pos β hβ
  have heq : β = β0 := backing_eq_of_common hB hβ hβ0 (p := b.data)
    (by omega) (by omega) (by omega) (by omega)
  subst heq
  refine ⟨β, hβ, hstart, ?_⟩
  by_contra hne
  have hlt : b.size < β.len := by omega
  obtain ⟨c, hc, hcov⟩ := hmem.cover β hβ (β.start + b.size) (by omega) (by omega)
  obtain ⟨β1, hβ1, hcstart⟩ := (hmem.headIff c hc).mp (hheads c hc)
  obtain ⟨β2, hβ2, hcfit⟩ := hmem.inB c hc
  have hcfit2 : β2.start ≤ c.data ∧ c.data + c.size ≤ β2.start + β2.len := hcfit
  have hcpos := hmem.pos c hc
  have hβ1pos := hB.pos β1 hβ1
  have heq2 : β2 = β := backing_eq_of_common hB hβ2 hβ (p := β.start + b.size)
    (by omega) (by omega) (by omega) (by omega)
  subst heq2
  have heq3 : β1 = β2 := backing_eq_of_common hB hβ1 hβ2 (p := c.data)
    (by omega) (by omega) (by omega) (by omega)
  subst heq3
  have hcb : c = b := data_unique hmem.disj hmem.pos hc hb (by omega)
  rw [hcb] at hcov
  omega

/-- C10: in every reachable state the free chain is maximally coalesced — no
two consecutive free-chain blocks satisfy `left.data + left.size = right.data`
with `right.isHead = false` — and after the teardown loop of `freeAllBlocks`
releases every used block, every block remaining on the free chain is a head
block whose size equals its backing allocation's originally requested byte
count, so the teardown assertion `assert(freeBlocks->isHead)` never fails. -/
theorem C10_teardown (s : Pool) (B : List Backing) (h : Reach s B) :
    List.Chain' NoMergeRel s.freeBlocks ∧
    ∀ b ∈ releaseAll s.usedBlocks s.freeBlocks,
      b.isHead = true ∧ ∃ β ∈ B, b.data = β.start ∧ b.size = β.len := by
  have hInv := reach_poolInv h
  refine ⟨hInv.noMerge, ?_⟩
  obtain ⟨hm, hs2, hn2⟩ := releaseAll_core hInv.back s.usedBlocks s.freeBlocks
    hInv.mem hInv.sorted hInv.noMerge
  have hheads := allFree_heads hm hs2 hn2
  have hsizes := head_size_eq_len hm hInv.back hheads
  exact fun b hb => ⟨hheads b hb, hsizes b hb⟩

/-- C10 witness: in a concrete reachable state with one used and one free
block, the teardown release leaves a single head block covering the whole
backing allocation. -/
theorem C10_teardown_witness :
    List.Chain' NoMergeRel ((allocate 100 1 (initPool 4)).1).freeBlocks ∧
    ∀ b ∈ releaseAll ((allocate 100 1 (initPool 4)).1).usedBlocks
        ((allocate 100 1 (initPool 4)).1).freeBlocks,
      b.isHead = true ∧ ∃ β ∈ stepBackings 100 1 (initPool 4) [],
        b.data = β.start ∧ b.size = β.len :=
  C10_teardown _ _
    (Reach.stepAlloc 100 1 (initPool 4) [] (Reach.init 4) (by decide))

end Simpool
